import Mathlib

/-!
Shallow embedding of the hlb code generator (`codegen/codegen.go` and the
builtin registry file of the same package), together with proofs about the
behaviour of `Generate`, the `Emit*` family, `lookupCall`, `initCallables`
and `CheckPrototype`.

Conventions of the embedding:
* Machinery of the repository that is not part of the given sources
  (the `parser/ast` node types, the `Register`/`Value` cells, the checker,
  the parser and the external interfaces `Resolver`/`Directory`/`Debugger`)
  is modelled from the specification; every such definition carries a doc
  comment saying so.
* Go's `(T, error)` returns become `Except Err T`.
* The evaluator is single threaded; per the specification, a register chain
  may be implemented by eager evaluation ("implement as either (a) eager
  eval with stored closures flushed on Value() ... both preserve ordering
  semantics"), so `SetAsync f` is modelled as applying `f` to the current
  value at once, and an error anywhere surfaces as the `Except` error.
* Mutual recursion of the Go methods is made total with a `fuel` argument;
  exhausted fuel is the distinguished error `Err.outOfFuel`.
-/

namespace HLB

/-- Modelled from the spec: the closed set of kinds, `Filesystem`, `String`,
`Int`, `Bool`, `Pipeline`, `Option`, the parameterised family
`Option::(callee)` and the sentinel `None` ("no type hint"). -/
inductive Kind where
  | filesystem
  | str
  | int
  | bool
  | pipeline
  | option
  | none
  | optionFor (callee : String)
  deriving DecidableEq, Repr

/-- Modelled from the spec: a `Filesystem` is an opaque immutable handle to a
deferred build graph; the core never inspects it, so an abstract token
suffices. -/
abbrev Fs := Nat

/-- Modelled from the spec: a `Pipeline` value is opaque to the core. -/
abbrev Pipeline := Nat

/-- Modelled from the spec: one fragment of an `Option` list. `solve`
stands for a `solver.SolveOption` (the extra solve options appended by the
code generator), `breakpointCommand` mirrors the `breakpointCommand`
slice attached for debugger breakpoints, and `frag` stands for any other
option fragment produced by a host callable. -/
inductive Opt where
  | solve (tag : Nat)
  | breakpointCommand (cmd : List String)
  | frag (tag : Nat)
  deriving DecidableEq, Repr

/-- Modelled from the spec: a `Value` is a tagged union carrying one of an
integer, a boolean, a string, a filesystem, an option list or a pipeline.
`zero` is the content of a freshly created register (kind `None`). -/
inductive Value where
  | int (n : Int)
  | bool (b : Bool)
  | str (s : String)
  | fs (f : Fs)
  | opt (xs : List Opt)
  | pipeline (p : Pipeline)
  | zero
  deriving DecidableEq, Repr

/-- Which AST node an `ImportPathNotExist` diagnostic is attached to:
`id.DeprecatedPath`, `id.Expr.FuncLit.Type`, or `id.Expr` itself. -/
inductive NodeRef where
  | deprecatedPath
  | funcLitType
  | importExpr
  deriving DecidableEq, Repr

/-- Error values of the embedding; each constructor stands for one of the
error families produced by the code generator. `backtrace` mirrors
`WithBacktraceError`, carrying the frame stack of the context. -/
inductive Err where
  | targetNotDefined (name : String) (filename : String)
  | undefinedIdent (name : String)
  | internal (msg : String)
  | importPathNotExist (node : NodeRef) (filename : String)
  | badCast
  | invalidEscape (c : Char)
  | plain (msg : String)
  | hostFailure (msg : String)
  | outOfFuel
  | backtrace (frames : List String) (e : Err)
  deriving DecidableEq, Repr

/-- An error is internal when it is (or wraps) an `errdefs.WithInternalErrorf`
diagnostic. -/
def Err.isInternalErr : Err → Bool
  | Err.internal _ => true
  | Err.backtrace _ e => e.isInternalErr
  | _ => false

/-- Modelled from the spec: a `Register` is a single-assignment cell holding a
`Value`; with eager forcing its whole state is its current value. -/
structure Register where
  val : Value
  deriving DecidableEq, Repr

/-- Modelled from the spec: `Set` stores a value in the register. -/
def Register.set (_r : Register) (v : Value) : Register := { val := v }

/-- Modelled from the spec: `NewRegister` creates a register holding the zero
value of kind `None`. -/
def NewRegister : Register := { val := Value.zero }

/-- Modelled from the spec: the kind carried by a value. -/
def Value.kind : Value → Kind
  | Value.int _ => Kind.int
  | Value.bool _ => Kind.bool
  | Value.str _ => Kind.str
  | Value.fs _ => Kind.filesystem
  | Value.opt _ => Kind.option
  | Value.pipeline _ => Kind.pipeline
  | Value.zero => Kind.none

/-- Modelled from the spec: conversion of a value to an option list fails
loudly (`bad cast`) if the tag does not match. -/
def Value.option : Value → Except Err (List Opt)
  | Value.opt xs => Except.ok xs
  | _ => Except.error Err.badCast

/-- Modelled from the spec: conversion of a value to a string fails loudly if
the tag does not match. -/
def Value.toStr : Value → Except Err String
  | Value.str s => Except.ok s
  | _ => Except.error Err.badCast

/-- Modelled from the spec: conversion of a value to a filesystem fails loudly
if the tag does not match. -/
def Value.filesystem : Value → Except Err Fs
  | Value.fs f => Except.ok f
  | _ => Except.error Err.badCast

/-- Modelled from the spec: a build request; `Generate` returns a `Parallel`
over the per-target requests. -/
inductive Request where
  | solve (f : Fs)
  | pipelineReq (p : Pipeline)
  | parallel (rs : List Request)
  deriving Repr

/-- Modelled from the spec: converting a register's value to a `Request`;
only filesystem and pipeline values compile to requests. -/
def Value.request : Value → Except Err Request
  | Value.fs f => Except.ok (Request.solve f)
  | Value.pipeline p => Except.ok (Request.pipelineReq p)
  | _ => Except.error Err.badCast

/-- Modelled from the spec: the `Data` slot of a scope object. Function
parameters hold their bound `Value`. The resolved module of an import is
held in the import store of the evaluation state (see `St`), because Go
mutates the object in place. -/
inductive ObjData where
  | none
  | value (v : Value)
  deriving DecidableEq, Repr

/-- Modelled from the spec: `NewValue(ctx, obj.Data)` converts the data of a
resolved object into a `Value`. -/
def NewValue : ObjData → Except Err Value
  | ObjData.value v => Except.ok v
  | ObjData.none => Except.error Err.badCast

/-! ### Go string helpers

The code generator uses `strings.TrimLeft`, `strings.TrimRight`,
`strings.TrimSuffix`, `strings.TrimSpace`, `strings.Join`, a
`bufio.Scanner` over lines, and `dedent.Dedent`. They are re-implemented
here over character lists with Go semantics. -/

/-- Go `strings.TrimLeft` on character lists: remove leading characters
contained in the cutset. -/
def trimLeftList (cut : List Char) (cs : List Char) : List Char :=
  match cs with
  | [] => []
  | c :: rest => if c ∈ cut then trimLeftList cut rest else c :: rest

/-- Go `strings.TrimRight` on character lists. -/
def trimRightList (cut : List Char) (cs : List Char) : List Char :=
  (trimLeftList cut cs.reverse).reverse

/-- Go `strings.TrimLeft`. -/
def goTrimLeft (s : String) (cut : String) : String :=
  String.mk (trimLeftList cut.data s.data)

/-- Go `strings.TrimRight`. -/
def goTrimRight (s : String) (cut : String) : String :=
  String.mk (trimRightList cut.data s.data)

/-- ASCII white space as used by `strings.TrimSpace`. -/
def isGoSpace (c : Char) : Bool :=
  c = ' ' ∨ c = '\t' ∨ c = '\n' ∨ c = '\x0d' ∨ c = '\x0b' ∨ c = '\x0c'

/-- Go `strings.TrimSpace`. -/
def goTrimSpace (s : String) : String :=
  String.mk ((trimLeftList [] s.data).dropWhile isGoSpace |>.reverse.dropWhile isGoSpace |>.reverse)

/-- Go `strings.TrimSuffix`: drop the suffix when present, otherwise return
the string unchanged. -/
def goTrimSuffix (s : String) (suffix : String) : String :=
  if suffix.data.isSuffixOf s.data then
    String.mk (s.data.take (s.data.length - suffix.data.length))
  else s

/-- Split a character list at every occurrence of a separator. -/
def splitChar (sep : Char) : List Char → List (List Char)
  | [] => [[]]
  | c :: rest =>
    let r := splitChar sep rest
    if c = sep then [] :: r
    else
      match r with
      | [] => [[c]]
      | h :: t => (c :: h) :: t

/-- Drop one trailing carriage return, as `bufio.ScanLines` does. -/
def dropCarriage (cs : List Char) : List Char :=
  match cs.reverse with
  | '\x0d' :: rest => rest.reverse
  | _ => cs

/-- Lines of a string as produced by a `bufio.Scanner` with the default
split function: split at newlines, drop a final empty segment produced by a
trailing newline, and strip a trailing carriage return from each line. -/
def scanLines (s : String) : List String :=
  if s.data = [] then []
  else
    let parts := splitChar '\n' s.data
    let parts :=
      match parts.reverse with
      | [] :: rest => rest.reverse
      | _ => parts
    parts.map (fun cs => String.mk (dropCarriage cs))

/-- Whether a line consists only of spaces and tabs and is non-empty
(the `(?m)^[ \t]+$` pattern of the dedent library). -/
def isBlankIndentLine (cs : List Char) : Bool :=
  cs ≠ [] ∧ cs.all (fun c => c = ' ' ∨ c = '\t')

/-- Leading run of spaces and tabs of a line. -/
def leadingIndent (cs : List Char) : List Char :=
  cs.takeWhile (fun c => c = ' ' ∨ c = '\t')

/-- Margin folding loop of the dedent library: keep the running margin while
it stays a common head of every indent, shrink it when an indent is a head
of it, and give up (empty margin) otherwise. -/
def dedentMarginLoop (margin : List Char) : List (List Char) → List Char
  | [] => margin
  | ind :: rest =>
    if margin.isPrefixOf ind then dedentMarginLoop margin rest
    else if ind.isPrefixOf margin then dedentMarginLoop ind rest
    else []

/-- Common margin of the indents, per the dedent library. -/
def dedentMargin : List (List Char) → List Char
  | [] => []
  | first :: rest => dedentMarginLoop first rest

/-- Modelled from the spec: common-indent removal ("If opener is `<<-`,
apply common-indent removal"), following the behaviour of the external
`dedent.Dedent` library function: whitespace-only lines are blanked, the
longest common leading run of spaces and tabs over the remaining non-empty
lines is computed, and that margin is removed from the head of every line
carrying it. -/
def dedent (text : String) : String :=
  let lines := (splitChar '\n' text.data).map
    (fun cs => if isBlankIndentLine cs then [] else cs)
  let indents := (lines.filter
    (fun cs => cs.any (fun c => ¬ (c = ' ' ∨ c = '\t')))).map leadingIndent
  let margin := dedentMargin indents
  if margin = [] then String.intercalate "\n" (lines.map String.mk)
  else
    String.intercalate "\n" (lines.map (fun cs =>
      if margin.isPrefixOf cs then String.mk (cs.drop margin.length)
      else String.mk cs))

/-- Translation of `emitHeredocPieces`: join the pieces, trim leading
newlines and trailing newlines and tabs, then dispatch on the heredoc
opener (`start` with the terminator text trimmed off): `<<-` dedents,
`<<~` folds every trimmed line with single spaces, anything else is
returned as-is. -/
def emitHeredocPieces (start : String) (terminate : String) (pieces : List String)
    (ret : Register) : Except Err Register :=
  let raw := String.join pieces
  let raw := goTrimRight (goTrimLeft raw "\n") "\n\t"
  match goTrimSuffix start terminate with
  | "<<-" => Except.ok (ret.set (Value.str (dedent raw)))
  | "<<~" =>
    let lines := (scanLines (goTrimSpace raw)).map goTrimSpace
    Except.ok (ret.set (Value.str (String.intercalate " " lines)))
  | _ => Except.ok (ret.set (Value.str raw))

/-- Go `strconv.UnquoteChar` applied to a two-character escape sequence with
quote character `"`, as `EmitStringLit` does; the argument is the character
following the backslash. -/
def unquoteEscape (c : Char) : Except Err Char :=
  match c with
  | 'a' => Except.ok (Char.ofNat 7)
  | 'b' => Except.ok (Char.ofNat 8)
  | 'f' => Except.ok (Char.ofNat 12)
  | 'n' => Except.ok '\n'
  | 'r' => Except.ok '\x0d'
  | 't' => Except.ok '\t'
  | 'v' => Except.ok (Char.ofNat 11)
  | '\\' => Except.ok '\\'
  | '\'' => Except.ok '\''
  | '"' => Except.ok '"'
  | _ => Except.error (Err.invalidEscape c)

/-! ### AST

Modelled from the spec and the `parser/ast` package as used by
`codegen.go`: expressions are function literals, basic literals or call
expressions; statements are call statements or expression statements; a
function declaration carries parameters and a body block; an import
declaration carries the import expression. The Go default branches for a
node with every alternative nil (`invalid expr`, `invalid stmt`,
`invalid basic lit`) are unreachable on these total inductives and are not
represented. -/

/-- Modelled from the spec: a (possibly qualified) identifier expression.
`ast.NewIdentExpr` produces one with no reference; `m.foo` has ident `m`
and reference `foo`. -/
structure IdentExpr where
  ident : String
  reference : Option String
  deriving DecidableEq, Repr

/-- Modelled from the spec: a function parameter field, `Kind ident` with an
optional modifier (variadic); `EmitFuncDecl` skips modifier parameters when
binding arguments. -/
structure Param where
  kind : Kind
  name : String
  modifier : Bool
  deriving DecidableEq, Repr

/-- Modelled from the spec: a synthesised builtin declaration, one per
registered built-in, carrying the kinds it is registered under. -/
structure BuiltinDecl where
  name : String
  kinds : List Kind
  deriving DecidableEq, Repr

mutual

inductive Expr where
  | funcLit (kind : Kind) (body : BlockStmt)
  | basicLit (lit : BasicLit)
  | callExpr (name : IdentExpr) (signature : List Kind) (args : List Expr)

inductive BasicLit where
  | decimal (n : Int)
  | numeric (n : Int)
  | boolean (b : Bool)
  | strLit (frags : List StringFragment)
  | rawString (text : String)
  | heredoc (start : String) (terminateText : String) (frags : List HeredocFragment)
  | rawHeredoc (start : String) (terminateText : String) (frags : List RawHeredocFragment)

inductive StringFragment where
  | text (s : String)
  | escaped (c : Char)
  | interpolated (e : Expr)

inductive HeredocFragment where
  | spaces (s : String)
  | escaped (c : Char)
  | interpolated (e : Expr)
  | text (s : String)

inductive RawHeredocFragment where
  | spaces (s : String)
  | text (s : String)

inductive BlockStmt where
  | mk (kind : Kind) (stmts : List Stmt)

inductive Stmt where
  | call (cs : CallStmt)
  | expr (e : Expr)

inductive CallStmt where
  | mk (name : IdentExpr) (signature : List Kind) (args : List Expr)
       (withExpr : Option Expr) (bindId : Option Nat) (breakpoint : Bool)

inductive FuncDecl where
  | mk (name : String) (params : List Param) (body : Option BlockStmt)

inductive ImportDecl where
  | mk (name : String) (expr : Expr) (deprecatedPath : Option String)

inductive ObjNode where
  | builtinDecl (bd : BuiltinDecl)
  | funcDecl (fd : FuncDecl)
  | bindClause (bindId : Nat) (targets : List (String × FuncDecl))
  | importDecl (slot : Nat) (id : ImportDecl)
  | field (p : Param)
  | other

end

/-- Kind of a block. -/
def BlockStmt.kind : BlockStmt → Kind
  | BlockStmt.mk k _ => k

/-- Statements of a block. -/
def BlockStmt.stmts : BlockStmt → List Stmt
  | BlockStmt.mk _ ss => ss

/-- Name of a function declaration. -/
def FuncDecl.name : FuncDecl → String
  | FuncDecl.mk n _ _ => n

/-- Parameters of a function declaration. -/
def FuncDecl.params : FuncDecl → List Param
  | FuncDecl.mk _ ps _ => ps

/-- Body of a function declaration. -/
def FuncDecl.body : FuncDecl → Option BlockStmt
  | FuncDecl.mk _ _ b => b

/-- Name of an import declaration. -/
def ImportDecl.name : ImportDecl → String
  | ImportDecl.mk n _ _ => n

/-- Expression of an import declaration. -/
def ImportDecl.expr : ImportDecl → Expr
  | ImportDecl.mk _ e _ => e

/-- Deprecated path form of an import declaration. -/
def ImportDecl.deprecatedPath : ImportDecl → Option String
  | ImportDecl.mk _ _ p => p

/-- Call-statement accessor: the callee name. -/
def CallStmt.name : CallStmt → IdentExpr
  | CallStmt.mk n _ _ _ _ _ => n

/-- Modelled from the spec: a scope object, `Object { kind, ident, node,
data }` (the ident is the association key of the table holding it). -/
structure Object where
  kind : Kind
  node : ObjNode
  data : ObjData

/-- Modelled from the spec: a handle to a directory used to open source
files; opaque to the core. -/
abbrev Dir := Nat

/-- Modelled from the spec: a module is a named compilation unit with an
owning directory handle and a root scope; the root scope's object table is
`objects`. -/
structure Module where
  filename : String
  directory : Dir
  objects : List (String × Object)

/-- Translation of the `Target` struct: a requested target name. -/
structure Target where
  name : String
  deriving DecidableEq, Repr

/-- Modelled from the spec: a scope chain; `frames` are the inner (function)
object tables, innermost first, and `mod` is the module whose root scope
terminates the chain (`scope.Root()`). -/
structure Scope where
  frames : List (List (String × Object))
  mod : Module

/-- Lookup in the inner frames, innermost first. -/
def lookupFrames (name : String) : List (List (String × Object)) → Option Object
  | [] => Option.none
  | f :: rest =>
    match f.lookup name with
    | Option.some o => Option.some o
    | Option.none => lookupFrames name rest

/-- Modelled from the spec: `scope.Lookup` walks outward through the frames
and ends at the module's root object table. -/
def Scope.lookupName (sc : Scope) (name : String) : Option Object :=
  match lookupFrames name sc.frames with
  | Option.some o => Option.some o
  | Option.none => sc.mod.objects.lookup name

/-- Modelled from the spec: a binding triple routing effect parameters of a
call to a user sub-closure. The bind clause is identified by `bindId`
(standing for the Go pointer identity used by `call.BindClause == b.Bind`). -/
structure Binding where
  bindId : Nat
  name : String
  closure : FuncDecl

/-- Modelled from the spec: the parts of the `context.Context` the code
generator reads: the contextual return type (`WithReturnType`), the frame
stack of call names (`WithFrame`), and the current binding (`WithBinding`).
Program counter and argument annotations are diagnostic only and are not
modelled. -/
structure Context where
  returnType : Kind
  frames : List String
  binding : Option Binding

/-- Flat text of a possibly qualified identifier. -/
def IdentExpr.text (ie : IdentExpr) : String :=
  ie.ident ++ (match ie.reference with
    | Option.some r => "." ++ r
    | Option.none => "")

/-- Push a call frame (`WithFrame(ctx, Frame{call.Name})`). -/
def withFrame (ctx : Context) (name : IdentExpr) : Context :=
  { ctx with frames := ctx.frames ++ [name.text] }

/-- Fresh top-level context: no type hint, no frames, no binding. -/
def emptyContext : Context :=
  { returnType := Kind.none, frames := [], binding := Option.none }

/-! ### Reflection model and the callable registry -/

/-- Modelled of Go `reflect.Type` as used by `CheckPrototype` and
`EmitBuiltinDecl`: a named type that is or is not an interface, carrying
the names of the interfaces its method set satisfies, or a slice type
(the variadic tail). -/
inductive RType where
  | named (name : String) (isInterface : Bool) (impls : List String)
  | slice (elem : RType)
  deriving DecidableEq, Repr

/-- Whether the reflected type is an interface (`Kind() == reflect.Interface`). -/
def RType.isIface : RType → Bool
  | RType.named _ i _ => i
  | RType.slice _ => false

/-- Go `t.Implements(u)`: `u` must be an interface and the method set of `t`
must satisfy it. -/
def RType.implementsT (t u : RType) : Bool :=
  match t, u with
  | RType.named _ _ impls, RType.named n true _ => n ∈ impls
  | _, _ => false

/-- Go `t.Elem()` of a slice type; the code generator only applies it to the
variadic tail, which Go guarantees to be a slice, so the non-slice case
(a Go panic) is mapped to the type itself. -/
def RType.elemT : RType → RType
  | RType.slice e => e
  | t => t

/-- Modelled of a `reflect.Value` argument passed to a callable's `Call`
method. -/
inductive RVal where
  | rctx (c : Context)
  | client
  | value (v : Value)
  | opts (o : List Opt)
  | rstr (s : String)
  | rint (n : Int)
  | rbool (b : Bool)
  | rfs (f : Fs)

/-- Modelled from the spec: `arg.Reflect(param)` returns a typed view of a
`Value` or fails with `bad cast`. -/
def Value.reflect (v : Value) (t : RType) : Except Err RVal :=
  match t, v with
  | RType.named "Value" true _, v' => Except.ok (RVal.value v')
  | RType.named "string" _ _, Value.str s => Except.ok (RVal.rstr s)
  | RType.named "int" _ _, Value.int n => Except.ok (RVal.rint n)
  | RType.named "bool" _ _, Value.bool b => Except.ok (RVal.rbool b)
  | RType.named "Filesystem" true _, Value.fs f => Except.ok (RVal.rfs f)
  | _, _ => Except.error Err.badCast

/-- Modelled of a registered host callable: the reflected signature of its
`Call` method (`ins`, whether it is variadic, `outs`) together with its
behaviour; per the prototype the interesting outputs are a `Value` and an
optional error. -/
structure Callable where
  ins : List RType
  variadic : Bool
  outs : List RType
  impl : List RVal → Value × Option Err

/-- The two-level registry type `map[ast.Kind]map[string]interface{}`,
as an association list to keep iteration deterministic. -/
abbrev CallTable := List (Kind × List (String × Callable))

/-- Lookup `Callables[kind][name]`. -/
def CallTable.find (tbl : CallTable) (k : Kind) (name : String) : Option Callable :=
  match tbl.lookup k with
  | Option.some byKind => byKind.lookup name
  | Option.none => Option.none

/-- Modelled from the spec: the reflected prototype inputs
`(ctx, buildClient, incoming Value, options Option)` built once at registry
initialisation from `Prototype{}.Call`. -/
def PrototypeIn : List RType :=
  [RType.named "Context" true ["Context"],
   RType.named "Client" false [],
   RType.named "Value" true ["Value"],
   RType.slice (RType.named "SolveOption" false [])]

/-- Modelled from the spec: the reflected prototype outputs `(Value, error)`. -/
def PrototypeOut : List RType :=
  [RType.named "Value" true ["Value"],
   RType.named "error" true ["error"]]

/-- Position-wise conformance test used by `CheckPrototype`: a parameter
mismatches when it is an interface not implementing the prototype type, or
a non-interface different from the prototype type. -/
def protoMismatch (param proto : RType) : Bool :=
  (param.isIface ∧ ¬ param.implementsT proto) ∨ (¬ param.isIface ∧ param ≠ proto)

/-- The default reflected type, only used to state positional indexing. -/
def rtypeDefault : RType := RType.named "" false []

/-- Structured stand-in for the diagnostic text
`expected (T).Call(ins)(outs) to match Call(protoIn)(protoOut)`. -/
structure ProtoErr where
  ins : List RType
  outs : List RType
  deriving DecidableEq, Repr

/-- Translation of `CheckPrototype`: the callable's `Call` method must have
at least the prototype inputs and exactly as many outputs, and every
prototype position must conform. -/
def CheckPrototype (c : Callable) : Except ProtoErr Unit :=
  if c.ins.length < PrototypeIn.length ∨ c.outs.length ≠ PrototypeOut.length then
    Except.error { ins := c.ins, outs := c.outs }
  else if (List.range PrototypeIn.length).any (fun i =>
      protoMismatch (c.ins.getD i rtypeDefault) (PrototypeIn.getD i rtypeDefault)) then
    Except.error { ins := c.ins, outs := c.outs }
  else if (List.range PrototypeOut.length).any (fun i =>
      protoMismatch (c.outs.getD i rtypeDefault) (PrototypeOut.getD i rtypeDefault)) then
    Except.error { ins := c.ins, outs := c.outs }
  else Except.ok ()

/-- Failure collection loop of `initCallables` (the `errs` slice): the
`CheckPrototype` failures of every registry entry, in registry order. -/
def initCallablesErrs (tbl : CallTable) : List ProtoErr :=
  ((tbl.map Prod.snd).flatten.map Prod.snd).filterMap
    (fun c => match CheckPrototype c with
      | Except.error e => Option.some e
      | Except.ok _ => Option.none)

/-- Translation of `initCallables`: every callable of the registry is
checked against the prototype, the failures are collected in registry
order, and initialisation fails with the concatenated diagnostic when
there is at least one failure. -/
def initCallables (tbl : CallTable) : Except (List ProtoErr) Unit :=
  if 0 < (initCallablesErrs tbl).length then Except.error (initCallablesErrs tbl)
  else Except.ok ()

/-! ### External interfaces and the code generator -/

/-- Modelled from the spec: `Directory.Open` distinguishes "does not exist"
(`errdefs.IsNotExist`) from every other failure. -/
inductive OpenErr where
  | notExist
  | failure (e : Err)

/-- Modelled from the spec: a handle to an opened source file. -/
abbrev FileHandle := Nat

/-- Modelled from the spec: the narrow external interfaces the code
generator consumes, plus the repository components outside the given
sources (`parser.Parse`, `checker.SemanticPass`, `linter.Lint`,
`checker.Check`, `checker.CheckReferences`, the `Resolver`, the
`Debugger`). The build client is opaque and carried implicitly. -/
structure Host where
  debug : Except Err Unit
  resolve : ImportDecl → Fs → Except Err Dir
  openFile : Dir → String → Except OpenErr FileHandle
  parse : FileHandle → Except Err Module
  semanticPass : Module → Except Err Unit
  lint : Module → Except Err Unit
  check : Module → Except Err Unit
  checkReferences : Module → String → Except Err Unit

/-- Translation of the `CodeGen` struct: the debugger, client and resolver
are folded into `host`; `extraSolveOpts` is the list configured through
`WithExtraSolveOpts`. -/
structure CodeGen where
  host : Host
  extraSolveOpts : List Opt

/-- Translation of `CodeGenOption`. -/
def CodeGenOption : Type := CodeGen → Except Err CodeGen

/-- Translation of `WithExtraSolveOpts`: append the given solve options to
the configured list. -/
def WithExtraSolveOpts (extraOpts : List Opt) : CodeGenOption :=
  fun cg => Except.ok { cg with extraSolveOpts := cg.extraSolveOpts ++ extraOpts }

/-- Option application loop of `New`. -/
def applyOptions (cg : CodeGen) : List CodeGenOption → Except Err CodeGen
  | [] => Except.ok cg
  | o :: rest =>
    match o cg with
    | Except.error e => Except.error e
    | Except.ok cg' => applyOptions cg' rest

/-- Translation of `New`: start from a code generator with no extra solve
options and apply the options in order, stopping at the first failure. -/
def New (host : Host) (opts : List CodeGenOption) : Except Err CodeGen :=
  applyOptions { host := host, extraSolveOpts := [] } opts

/-- The constant name `ModuleFilename` used when an import expression
evaluates to a filesystem; its concrete text is irrelevant to the claims. -/
def ModuleFilename : String := "module.hlb"

/-! ### Builtin dispatch -/

/-- Callable selection loop of `EmitBuiltinDecl` when the context carries no
return type hint: the first kind of the builtin declaration with a registry
entry wins. -/
def findKindCallable (tbl : CallTable) (name : String) : List Kind → Option Callable
  | [] => Option.none
  | k :: rest =>
    match tbl.find k name with
    | Option.some c => Option.some c
    | Option.none => findKindCallable tbl name rest

/-- Reflection loop for the regular (fixed) arguments of a builtin call:
each argument is coerced to the corresponding declared parameter type. -/
def reflectFixed : List (RType × Value) → Except Err (List RVal)
  | [] => Except.ok []
  | (param, arg) :: rest =>
    match arg.reflect param with
    | Except.error e => Except.error e
    | Except.ok rv =>
      match reflectFixed rest with
      | Except.error e => Except.error e
      | Except.ok rvs => Except.ok (rv :: rvs)

/-- Reflection loop for the variadic tail of a builtin call: every remaining
argument is coerced to the element type of the variadic slice. -/
def reflectVariadic (elem : RType) : List Value → Except Err (List RVal)
  | [] => Except.ok []
  | arg :: rest =>
    match arg.reflect elem with
    | Except.error e => Except.error e
    | Except.ok rv =>
      match reflectVariadic elem rest with
      | Except.error e => Except.error e
      | Except.ok rvs => Except.ok (rv :: rvs)

/-- Translation of `EmitBuiltinDecl`: select the callable (by the contextual
return type when hinted, else by the first registered kind of the builtin),
install the binding in the context when present, append the code
generator's extra solve options to the option list, reflect the prototype
prefix `(ctx, client, incoming value, options)` followed by the fixed
arguments and, for a variadic callable, the remaining arguments at the
variadic element type, call the callable, and either wrap a returned error
with the backtrace of the context's frame stack or return the returned
value. -/
def EmitBuiltinDecl (tbl : CallTable) (cg : CodeGen) (ctx : Context) (bd : BuiltinDecl)
    (args : List Value) (opts : List Opt) (b : Option Binding) (v : Value) :
    Except Err Value :=
  let callable :=
    if ctx.returnType ≠ Kind.none then tbl.find ctx.returnType bd.name
    else findKindCallable tbl bd.name bd.kinds
  match callable with
  | Option.none => Except.error (Err.internal ("unrecognized builtin " ++ bd.name))
  | Option.some c =>
    let ctx := match b with
      | Option.some bnd => { ctx with binding := Option.some bnd }
      | Option.none => ctx
    let opts := opts ++ cg.extraSolveOpts
    let insHead : List RVal := [RVal.rctx ctx, RVal.client, RVal.value v, RVal.opts opts]
    let numIn := if c.variadic then c.ins.length - 1 else c.ins.length
    let expected : Int := (numIn : Int) - (PrototypeIn.length : Int)
    if (args.length : Int) < expected then
      Except.error (Err.internal ("expected args mismatch for " ++ bd.name))
    else
      match reflectFixed (((c.ins.take numIn).drop PrototypeIn.length).zip args) with
      | Except.error e => Except.error e
      | Except.ok fixedIns =>
        match (if c.variadic then
            reflectVariadic ((c.ins.getD numIn rtypeDefault).elemT)
              (args.drop (numIn - PrototypeIn.length))
          else Except.ok []) with
        | Except.error e => Except.error e
        | Except.ok varIns =>
          match c.impl (insHead ++ fixedIns ++ varIns) with
          | (_, Option.some e) => Except.error (Err.backtrace ctx.frames e)
          | (out, Option.none) => Except.ok out

/-! ### Evaluation state and the emitter -/

/-- Evaluation state: the import store. In Go the resolved module of an
imported file lives in `obj.Data` and is installed by in-place mutation;
here each import object carries a slot number and the store maps slots to
resolved modules (first match wins, installation prepends). -/
structure St where
  imports : List (Nat × Module)

/-- Cached module of an import slot, if installed. -/
def St.find (st : St) (slot : Nat) : Option Module :=
  st.imports.lookup slot

/-- The empty evaluation state. -/
def initialSt : St := { imports := [] }

/-- State-passing computations of the emitter. -/
def M (α : Type) : Type := St → Except Err (α × St)

/-- Breakpoint argument stringification loop of `EmitCallStmt`: every
argument must be a string. -/
def stringifyArgs : List Value → Except Err (List String)
  | [] => Except.ok []
  | a :: rest =>
    if a.kind ≠ Kind.str then Except.error (Err.plain "breakpoint args must be strings")
    else
      match a.toStr with
      | Except.error e => Except.error e
      | Except.ok s =>
        match stringifyArgs rest with
        | Except.error e => Except.error e
        | Except.ok ss => Except.ok (s :: ss)

/-- Parameter binding loop of `EmitFuncDecl`: parameters with a modifier are
skipped, every other parameter becomes a scope object holding the bound
argument value. -/
def bindParams : List Param → List Value → List (String × Object)
  | [], _ => []
  | _ :: _, [] => []
  | p :: ps, a :: rest =>
    if p.modifier then bindParams ps rest
    else (p.name, { kind := p.kind, node := ObjNode.field p, data := ObjData.value a }) ::
      bindParams ps rest

/-- Directory and filename selection of `EmitImport` (the switch on the
imported value's kind): a filesystem resolves through the host resolver and
opens `ModuleFilename`, a string is a path in the importing module's
directory, anything else leaves the module directory and an empty
filename. -/
def importDirFilename (cg : CodeGen) (mod : Module) (id : ImportDecl) (val : Value) :
    Except Err (Dir × String) :=
  match val.kind with
  | Kind.filesystem =>
    (match val.filesystem with
     | Except.error e' => Except.error e'
     | Except.ok f =>
       match cg.host.resolve id f with
       | Except.error e' => Except.error e'
       | Except.ok d => Except.ok ((d, ModuleFilename) : Dir × String))
  | Kind.str =>
    (match val.toStr with
     | Except.error e' => Except.error e'
     | Except.ok s => Except.ok ((mod.directory, s) : Dir × String))
  | _ => Except.ok ((mod.directory, "") : Dir × String)

/-- Open-parse-check phase of `EmitImport`: open the file (a missing file
becomes an `ImportPathNotExist` diagnostic on the most specific node
available, any other failure propagates), parse it, install the directory,
run the semantic pass, run the linter dropping its result, and run the
checker. -/
def emitImportOpen (cg : CodeGen) (id : ImportDecl) (dir : Dir) (filename : String) :
    Except Err Module :=
  match cg.host.openFile dir filename with
  | Except.error OpenErr.notExist =>
    (match id.deprecatedPath with
     | Option.some _ => Except.error (Err.importPathNotExist NodeRef.deprecatedPath filename)
     | Option.none =>
       match id.expr with
       | Expr.funcLit _ _ => Except.error (Err.importPathNotExist NodeRef.funcLitType filename)
       | _ => Except.error (Err.importPathNotExist NodeRef.importExpr filename))
  | Except.error (OpenErr.failure e') => Except.error e'
  | Except.ok fh =>
    match cg.host.parse fh with
    | Except.error e' => Except.error e'
    | Except.ok imod₀ =>
      let imod := { imod₀ with directory := dir }
      match cg.host.semanticPass imod with
      | Except.error e' => Except.error e'
      | Except.ok _ =>
        let _lintDropped := cg.host.lint imod
        match cg.host.check imod with
        | Except.error e' => Except.error e'
        | Except.ok _ => Except.ok imod

/-- Translation of `EmitRawHeredoc`: raw heredocs collect spaces and text
fragments with no escape processing, and the terminator is matched in its
back-tick wrapped form. -/
def EmitRawHeredoc (start : String) (terminateText : String)
    (frags : List RawHeredocFragment) (ret : Register) : Except Err Register :=
  let pieces := frags.map (fun f =>
    match f with
    | RawHeredocFragment.spaces s => s
    | RawHeredocFragment.text s => s)
  let terminate := "`" ++ terminateText ++ "`"
  emitHeredocPieces start terminate pieces ret

mutual

/-- Translation of `EmitExpr`: dispatch on the expression form; a call
expression runs under `SetAsync`, so the callee chain starts from the
register's prior value in a fresh register. -/
def EmitExpr (tbl : CallTable) (cg : CodeGen) (fuel : Nat) (ctx : Context) (scope : Scope)
    (e : Expr) (args : List Value) (opts : List Opt) (b : Option Binding) (ret : Register) :
    M Register :=
  match fuel with
  | 0 => fun _ => Except.error Err.outOfFuel
  | fuel + 1 => fun st =>
    match e with
    | Expr.funcLit _ body => EmitFuncLit tbl cg fuel ctx scope body b ret st
    | Expr.basicLit lit => EmitBasicLit tbl cg fuel ctx scope lit ret st
    | Expr.callExpr name sig cargs =>
      match lookupCall tbl cg fuel ctx scope name.ident st with
      | Except.error e' => Except.error e'
      | Except.ok (_, st₁) =>
        match EmitCallExpr tbl cg fuel ctx scope name sig cargs { val := ret.val } st₁ with
        | Except.error e' => Except.error e'
        | Except.ok (r₂, st₂) => Except.ok (ret.set r₂.val, st₂)

/-- Translation of `EmitFuncLit`: emit the literal's body block. -/
def EmitFuncLit (tbl : CallTable) (cg : CodeGen) (fuel : Nat) (ctx : Context) (scope : Scope)
    (body : BlockStmt) (b : Option Binding) (ret : Register) : M Register :=
  match fuel with
  | 0 => fun _ => Except.error Err.outOfFuel
  | fuel + 1 => fun st =>
    EmitBlock tbl cg fuel ctx scope (Option.some body) b ret st

/-- Translation of `EmitBasicLit`: literals store their value in the return
register; string-like literals elaborate their fragments. -/
def EmitBasicLit (tbl : CallTable) (cg : CodeGen) (fuel : Nat) (ctx : Context) (scope : Scope)
    (lit : BasicLit) (ret : Register) : M Register :=
  match fuel with
  | 0 => fun _ => Except.error Err.outOfFuel
  | fuel + 1 => fun st =>
    match lit with
    | BasicLit.decimal n => Except.ok (ret.set (Value.int n), st)
    | BasicLit.numeric n => Except.ok (ret.set (Value.int n), st)
    | BasicLit.boolean bv => Except.ok (ret.set (Value.bool bv), st)
    | BasicLit.strLit frags => EmitStringLit tbl cg fuel ctx scope frags ret st
    | BasicLit.rawString text => Except.ok (ret.set (Value.str text), st)
    | BasicLit.heredoc start term frags => EmitHeredoc tbl cg fuel ctx scope start term frags ret st
    | BasicLit.rawHeredoc start term frags =>
      match EmitRawHeredoc start term frags ret with
      | Except.error e' => Except.error e'
      | Except.ok r => Except.ok (r, st)

/-- Translation of `EmitStringLit`: elaborate the fragments to string pieces
and store their concatenation. -/
def EmitStringLit (tbl : CallTable) (cg : CodeGen) (fuel : Nat) (ctx : Context) (scope : Scope)
    (frags : List StringFragment) (ret : Register) : M Register :=
  match fuel with
  | 0 => fun _ => Except.error Err.outOfFuel
  | fuel + 1 => fun st =>
    match emitStringPieces tbl cg fuel ctx scope frags st with
    | Except.error e' => Except.error e'
    | Except.ok (pieces, st₁) => Except.ok (ret.set (Value.str (String.join pieces)), st₁)

/-- Fragment loop of `EmitStringLit`: `\$` contributes a literal dollar,
every other escape is decoded with `UnquoteChar`, an interpolated
expression is evaluated into a fresh register and coerced to string, and
text contributes itself. -/
def emitStringPieces (tbl : CallTable) (cg : CodeGen) (fuel : Nat) (ctx : Context)
    (scope : Scope) (frags : List StringFragment) : M (List String) :=
  match fuel with
  | 0 => fun _ => Except.error Err.outOfFuel
  | fuel + 1 => fun st =>
    match frags with
    | [] => Except.ok ([], st)
    | f :: rest =>
      match (match f with
        | StringFragment.escaped c =>
          if c = '$' then Except.ok (("$", st) : String × St)
          else
            (match unquoteEscape c with
             | Except.error e' => Except.error e'
             | Except.ok ch => Except.ok (String.mk [ch], st))
        | StringFragment.interpolated ie =>
          (match EmitExpr tbl cg fuel ctx scope ie [] [] Option.none NewRegister st with
           | Except.error e' => Except.error e'
           | Except.ok (r, st₁) =>
             match r.val.toStr with
             | Except.error e' => Except.error e'
             | Except.ok piece => Except.ok (piece, st₁))
        | StringFragment.text s => Except.ok ((s, st) : String × St)) with
      | Except.error e' => Except.error e'
      | Except.ok (piece, st₁) =>
        match emitStringPieces tbl cg fuel ctx scope rest st₁ with
        | Except.error e' => Except.error e'
        | Except.ok (pieces, st₂) => Except.ok (piece :: pieces, st₂)

/-- Translation of `EmitHeredoc`: elaborate the fragments, then apply the
shared heredoc piece processing. -/
def EmitHeredoc (tbl : CallTable) (cg : CodeGen) (fuel : Nat) (ctx : Context) (scope : Scope)
    (start : String) (terminateText : String) (frags : List HeredocFragment)
    (ret : Register) : M Register :=
  match fuel with
  | 0 => fun _ => Except.error Err.outOfFuel
  | fuel + 1 => fun st =>
    match emitHeredocFrags tbl cg fuel ctx scope frags st with
    | Except.error e' => Except.error e'
    | Except.ok (pieces, st₁) =>
      match emitHeredocPieces start terminateText pieces ret with
      | Except.error e' => Except.error e'
      | Except.ok r => Except.ok (r, st₁)

/-- Fragment loop of `EmitHeredoc`: spaces and text contribute themselves,
`\$` a literal dollar, every other escape its raw two-character text, and
an interpolated expression its string coercion. -/
def emitHeredocFrags (tbl : CallTable) (cg : CodeGen) (fuel : Nat) (ctx : Context)
    (scope : Scope) (frags : List HeredocFragment) : M (List String) :=
  match fuel with
  | 0 => fun _ => Except.error Err.outOfFuel
  | fuel + 1 => fun st =>
    match frags with
    | [] => Except.ok ([], st)
    | f :: rest =>
      match (match f with
        | HeredocFragment.spaces s => Except.ok ((s, st) : String × St)
        | HeredocFragment.escaped c =>
          if c = '$' then Except.ok (("$", st) : String × St)
          else Except.ok (String.mk ['\\', c], st)
        | HeredocFragment.interpolated ie =>
          (match EmitExpr tbl cg fuel ctx scope ie [] [] Option.none NewRegister st with
           | Except.error e' => Except.error e'
           | Except.ok (r, st₁) =>
             match r.val.toStr with
             | Except.error e' => Except.error e'
             | Except.ok piece => Except.ok (piece, st₁))
        | HeredocFragment.text s => Except.ok ((s, st) : String × St)) with
      | Except.error e' => Except.error e'
      | Except.ok (piece, st₁) =>
        match emitHeredocFrags tbl cg fuel ctx scope rest st₁ with
        | Except.error e' => Except.error e'
        | Except.ok (pieces, st₂) => Except.ok (piece :: pieces, st₂)

/-- Translation of `EmitCallExpr`: push a frame, yield to the debugger,
evaluate the arguments against the call's signature, and dispatch the
identifier. -/
def EmitCallExpr (tbl : CallTable) (cg : CodeGen) (fuel : Nat) (ctx : Context) (scope : Scope)
    (name : IdentExpr) (sig : List Kind) (cargs : List Expr) (ret : Register) : M Register :=
  match fuel with
  | 0 => fun _ => Except.error Err.outOfFuel
  | fuel + 1 => fun st =>
    let ctx := withFrame ctx name
    match cg.host.debug with
    | Except.error e' => Except.error e'
    | Except.ok _ =>
      match Evaluate tbl cg fuel ctx scope Option.none sig cargs st with
      | Except.error e' => Except.error e'
      | Except.ok (args, st₁) =>
        EmitIdentExpr tbl cg fuel ctx scope name name.ident args [] Option.none ret st₁

/-- Translation of `EmitIdentExpr`: resolve the identifier in the scope and
dispatch on the object's node: builtin declarations call the host callable
on the register's prior value; function declarations bind and run;
bind clauses run their target closure; imports re-dispatch the reference in
the imported module's scope; parameter fields append option lists when both
sides are options and assign otherwise. -/
def EmitIdentExpr (tbl : CallTable) (cg : CodeGen) (fuel : Nat) (ctx : Context) (scope : Scope)
    (ie : IdentExpr) (lookupName : String) (args : List Value) (opts : List Opt)
    (b : Option Binding) (ret : Register) : M Register :=
  match fuel with
  | 0 => fun _ => Except.error Err.outOfFuel
  | fuel + 1 => fun st =>
    match scope.lookupName lookupName with
    | Option.none => Except.error (Err.undefinedIdent lookupName)
    | Option.some obj =>
      match obj.node with
      | ObjNode.builtinDecl bd =>
        match EmitBuiltinDecl tbl cg ctx bd args opts b ret.val with
        | Except.error e' => Except.error e'
        | Except.ok v => Except.ok (ret.set v, st)
      | ObjNode.funcDecl fd =>
        EmitFuncDecl tbl cg fuel ctx scope.mod fd args Option.none ret st
      | ObjNode.bindClause bindId targets =>
        match targets.lookup lookupName with
        | Option.none => Except.error (Err.internal "no target binding")
        | Option.some closure =>
          EmitBinding tbl cg fuel ctx scope.mod
            { bindId := bindId, name := lookupName, closure := closure } args ret st
      | ObjNode.importDecl slot _ =>
        match st.find slot with
        | Option.none => Except.error (Err.internal "expected imported module to be resolved")
        | Option.some imod =>
          match ie.reference with
          | Option.none => Except.error (Err.internal "nil import reference")
          | Option.some refName =>
            EmitIdentExpr tbl cg fuel ctx { frames := [], mod := imod } ie refName args opts
              Option.none ret st
      | ObjNode.field _ =>
        match NewValue obj.data with
        | Except.error e' => Except.error e'
        | Except.ok val =>
          if val.kind ≠ Kind.option ∨ ret.val.kind ≠ Kind.option then
            Except.ok (ret.set val, st)
          else
            match ret.val.option with
            | Except.error e' => Except.error e'
            | Except.ok retOpts =>
              match val.option with
              | Except.error e' => Except.error e'
              | Except.ok valOpts => Except.ok (ret.set (Value.opt (retOpts ++ valOpts)), st)
      | ObjNode.other => Except.error (Err.internal "invalid resolved object")

/-- Translation of `EmitImport`: evaluate the import expression with no
return type hint; a filesystem value resolves to a directory through the
host resolver and opens `ModuleFilename`, a string value is a path opened
in the importing module's directory; a missing file becomes an
`ImportPathNotExist` diagnostic on the most specific node available, any
other open failure propagates; the opened file is parsed, given the
directory, semantically checked, linted with the result dropped, and
checked. -/
def EmitImport (tbl : CallTable) (cg : CodeGen) (fuel : Nat) (ctx : Context) (mod : Module)
    (id : ImportDecl) : M (Module × String) :=
  match fuel with
  | 0 => fun _ => Except.error Err.outOfFuel
  | fuel + 1 => fun st =>
    let ctx := { ctx with returnType := Kind.none }
    match EmitExpr tbl cg fuel ctx { frames := [], mod := mod } id.expr [] [] Option.none
        NewRegister st with
    | Except.error e' => Except.error e'
    | Except.ok (r, st₁) =>
      match importDirFilename cg mod id r.val with
      | Except.error e' => Except.error e'
      | Except.ok (dir, filename) =>
        match emitImportOpen cg id dir filename with
        | Except.error e' => Except.error e'
        | Except.ok imod => Except.ok ((imod, filename), st₁)

/-- Translation of `EmitFuncDecl`: check the arity, bind the parameters into
a child scope of the declaring module's scope, yield to the debugger, and
emit the body block. -/
def EmitFuncDecl (tbl : CallTable) (cg : CodeGen) (fuel : Nat) (ctx : Context)
    (declMod : Module) (fd : FuncDecl) (args : List Value) (b : Option Binding)
    (ret : Register) : M Register :=
  match fuel with
  | 0 => fun _ => Except.error Err.outOfFuel
  | fuel + 1 => fun st =>
    let params := fd.params
    if params.length ≠ args.length then
      Except.error (Err.internal ("arity mismatch calling " ++ fd.name))
    else
      let scope : Scope := { frames := [bindParams params args], mod := declMod }
      match cg.host.debug with
      | Except.error e' => Except.error e'
      | Except.ok _ => EmitBlock tbl cg fuel ctx scope fd.body b ret st

/-- Translation of `EmitBinding`: emit the bind clause's closure with the
binding attached. -/
def EmitBinding (tbl : CallTable) (cg : CodeGen) (fuel : Nat) (ctx : Context)
    (declMod : Module) (b : Binding) (args : List Value) (ret : Register) : M Register :=
  match fuel with
  | 0 => fun _ => Except.error Err.outOfFuel
  | fuel + 1 => fun st =>
    EmitFuncDecl tbl cg fuel ctx declMod b.closure args (Option.some b) ret st

/-- Translation of `lookupCall`: resolve the name; only imports act: a
cached import is reused as-is, otherwise the module is imported, installed
in the import store, and the qualified references against it are checked. -/
def lookupCall (tbl : CallTable) (cg : CodeGen) (fuel : Nat) (ctx : Context) (scope : Scope)
    (lookupName : String) : M Unit :=
  match fuel with
  | 0 => fun _ => Except.error Err.outOfFuel
  | fuel + 1 => fun st =>
    match scope.lookupName lookupName with
    | Option.none => Except.error (Err.undefinedIdent lookupName)
    | Option.some obj =>
      match obj.node with
      | ObjNode.importDecl slot id =>
        match st.find slot with
        | Option.some _ => Except.ok ((), st)
        | Option.none =>
          match EmitImport tbl cg fuel ctx scope.mod id st with
          | Except.error e' => Except.error e'
          | Except.ok ((imod, _), st₁) =>
            let st₂ : St := { imports := (slot, imod) :: st₁.imports }
            match cg.host.checkReferences scope.mod id.name with
            | Except.error e' => Except.error e'
            | Except.ok _ => Except.ok ((), st₂)
      | _ => Except.ok ((), st)

/-- Translation of `EmitBlock`: a nil block is a no-op; otherwise the
contextual return type becomes the block's kind and the statements are fed
through the single return register in source order. -/
def EmitBlock (tbl : CallTable) (cg : CodeGen) (fuel : Nat) (ctx : Context) (scope : Scope)
    (block : Option BlockStmt) (b : Option Binding) (ret : Register) : M Register :=
  match fuel with
  | 0 => fun _ => Except.error Err.outOfFuel
  | fuel + 1 => fun st =>
    match block with
    | Option.none => Except.ok (ret, st)
    | Option.some (BlockStmt.mk kind stmts) =>
      let ctx := { ctx with returnType := kind }
      emitStmts tbl cg fuel ctx scope stmts b ret st

/-- Statement loop of `EmitBlock`: a call statement runs under `SetAsync`
(the callee is resolved, then the statement is emitted into a fresh
register seeded with the prior value); an expression statement emits into
the register directly. -/
def emitStmts (tbl : CallTable) (cg : CodeGen) (fuel : Nat) (ctx : Context) (scope : Scope)
    (stmts : List Stmt) (b : Option Binding) (ret : Register) : M Register :=
  match fuel with
  | 0 => fun _ => Except.error Err.outOfFuel
  | fuel + 1 => fun st =>
    match stmts with
    | [] => Except.ok (ret, st)
    | stmt :: rest =>
      match (match stmt with
        | Stmt.call cs =>
          (match lookupCall tbl cg fuel ctx scope cs.name.ident st with
           | Except.error e' => Except.error e'
           | Except.ok (_, st₁) =>
             match EmitCallStmt tbl cg fuel ctx scope cs b { val := ret.val } st₁ with
             | Except.error e' => Except.error e'
             | Except.ok (r₂, st₂) => Except.ok (ret.set r₂.val, st₂))
        | Stmt.expr e => EmitExpr tbl cg fuel ctx scope e [] [] b ret st) with
      | Except.error e' => Except.error e'
      | Except.ok (r', st') => emitStmts tbl cg fuel ctx scope rest b r' st'

/-- Translation of `EmitCallStmt`: push a frame, evaluate the arguments,
evaluate a `with` clause under the `Option::(callee)` kind hint and force
it to an option list, attach a breakpoint command option when the call is a
breakpoint with non-empty stringified arguments, yield to the debugger,
pass the binding along when this is the matching call statement, and
dispatch the identifier. -/
def EmitCallStmt (tbl : CallTable) (cg : CodeGen) (fuel : Nat) (ctx : Context) (scope : Scope)
    (cs : CallStmt) (b : Option Binding) (ret : Register) : M Register :=
  match fuel with
  | 0 => fun _ => Except.error Err.outOfFuel
  | fuel + 1 => fun st =>
    match cs with
    | CallStmt.mk name sig cargs withE bindId isBp =>
      let ctx := withFrame ctx name
      match Evaluate tbl cg fuel ctx scope Option.none sig cargs st with
      | Except.error e' => Except.error e'
      | Except.ok (args, st₁) =>
        match (match withE with
          | Option.none => Except.ok (([] : List Opt), st₁)
          | Option.some we =>
            (match Evaluate tbl cg fuel ctx scope b [Kind.optionFor name.text] [we] st₁ with
             | Except.error e' => Except.error e'
             | Except.ok (values, st₂) =>
               match values with
               | [v] =>
                 (match v.option with
                  | Except.error e' => Except.error e'
                  | Except.ok os => Except.ok (os, st₂))
               | _ => Except.error (Err.internal "with clause values"))) with
        | Except.error e' => Except.error e'
        | Except.ok (opts₀, st₂) =>
          match (if isBp then
              match stringifyArgs args with
              | Except.error e' => Except.error e'
              | Except.ok command =>
                if command.length ≠ 0 then
                  Except.ok (opts₀ ++ [Opt.breakpointCommand command])
                else Except.ok opts₀
            else Except.ok opts₀) with
          | Except.error e' => Except.error e'
          | Except.ok opts₁ =>
            match cg.host.debug with
            | Except.error e' => Except.error e'
            | Except.ok _ =>
              let binding := match b with
                | Option.some bnd =>
                  if bindId = Option.some bnd.bindId then Option.some bnd else Option.none
                | Option.none => Option.none
              EmitIdentExpr tbl cg fuel ctx scope name name.ident args opts₁ binding ret st₂

/-- Translation of `Evaluate`: the kind hints must match the expressions
one-to-one; each expression is evaluated in a fresh register under its kind
hint and forced eagerly. -/
def Evaluate (tbl : CallTable) (cg : CodeGen) (fuel : Nat) (ctx : Context) (scope : Scope)
    (b : Option Binding) (kinds : List Kind) (exprs : List Expr) : M (List Value) :=
  match fuel with
  | 0 => fun _ => Except.error Err.outOfFuel
  | fuel + 1 => fun st =>
    if kinds.length ≠ exprs.length then
      Except.error (Err.internal "expected kinds to match exprs")
    else evaluateLoop tbl cg fuel ctx scope b (kinds.zip exprs) st

/-- Expression loop of `Evaluate`. -/
def evaluateLoop (tbl : CallTable) (cg : CodeGen) (fuel : Nat) (ctx : Context) (scope : Scope)
    (b : Option Binding) (pairs : List (Kind × Expr)) : M (List Value) :=
  match fuel with
  | 0 => fun _ => Except.error Err.outOfFuel
  | fuel + 1 => fun st =>
    match pairs with
    | [] => Except.ok ([], st)
    | (k, e) :: rest =>
      let ctx := { ctx with returnType := k }
      match EmitExpr tbl cg fuel ctx scope e [] [] b NewRegister st with
      | Except.error e' => Except.error e'
      | Except.ok (r, st₁) =>
        match evaluateLoop tbl cg fuel ctx scope b rest st₁ with
        | Except.error e' => Except.error e'
        | Except.ok (vs, st₂) => Except.ok (r.val :: vs, st₂)

end

/-- Per-target loop of `Generate`: verify the target is defined in the
module's root scope (a missing target is a user-facing error naming the
module file), yield to the debugger, emit an identifier expression for the
target into a fresh register, and convert the forced value to a request. -/
def generateLoop (tbl : CallTable) (cg : CodeGen) (fuel : Nat) (mod : Module) :
    List Target → M (List Request)
  | [] => fun st => Except.ok ([], st)
  | t :: rest => fun st =>
    match mod.objects.lookup t.name with
    | Option.none => Except.error (Err.targetNotDefined t.name mod.filename)
    | Option.some _ =>
      match cg.host.debug with
      | Except.error e' => Except.error e'
      | Except.ok _ =>
        match EmitIdentExpr tbl cg fuel emptyContext { frames := [], mod := mod }
            { ident := t.name, reference := Option.none } t.name [] [] Option.none
            NewRegister st with
        | Except.error e' => Except.error e'
        | Except.ok (r, st₁) =>
          match r.val.request with
          | Except.error e' => Except.error e'
          | Except.ok req =>
            match generateLoop tbl cg fuel mod rest st₁ with
            | Except.error e' => Except.error e'
            | Except.ok (reqs, st₂) => Except.ok (req :: reqs, st₂)

/-- Translation of `Generate`: run the per-target loop and wrap the
collected requests in a single `Parallel` request. -/
def Generate (tbl : CallTable) (cg : CodeGen) (fuel : Nat) (mod : Module)
    (targets : List Target) : M Request :=
  fun st =>
    match generateLoop tbl cg fuel mod targets st with
    | Except.error e' => Except.error e'
    | Except.ok (reqs, st₁) => Except.ok (Request.parallel reqs, st₁)

/-! ### Heredoc elaboration: supporting lemmas and the C5 analysis -/

/-- Stripping all leading newlines coincides with `strings.TrimLeft` with
the newline cutset. -/
theorem trimLeftList_newline :
    ∀ cs : List Char, trimLeftList ['\n'] cs = cs.dropWhile (fun c => c == '\n')
  | [] => rfl
  | c :: cs => by
    by_cases h : c = '\n'
    · subst h
      simpa [trimLeftList, List.dropWhile] using trimLeftList_newline cs
    · have hb : (c == '\n') = false := by simp [h]
      simp [trimLeftList, List.dropWhile, h, hb]

/-- Stripping all leading newline or tab characters coincides with
`strings.TrimLeft` with the newline-tab cutset. -/
theorem trimLeftList_newline_tab :
    ∀ cs : List Char,
      trimLeftList ['\n', '\t'] cs = cs.dropWhile (fun c => c == '\n' || c == '\t')
  | [] => rfl
  | c :: cs => by
    by_cases h : c = '\n'
    · subst h
      simpa [trimLeftList, List.dropWhile] using trimLeftList_newline_tab cs
    · by_cases h' : c = '\t'
      · subst h'
        simpa [trimLeftList, List.dropWhile] using trimLeftList_newline_tab cs
      · have hb : (c == '\n' || c == '\t') = false := by simp [h, h']
        simp [trimLeftList, List.dropWhile, h, h', hb]

/-- Claim-side description of the trimming the elaboration applies to the
joined fragments: drop every leading newline, then drop every trailing
newline or tab. -/
def stripHeredocEnds (s : String) : String :=
  String.mk (((s.data.dropWhile (fun c => c == '\n')).reverse.dropWhile
    (fun c => c == '\n' || c == '\t')).reverse)

/-- The trimming performed by `emitHeredocPieces`
(`strings.TrimRight(strings.TrimLeft(raw, "\n"), "\n\t")`) strips all
leading newlines and all trailing newlines and tabs. -/
theorem goTrim_eq_stripHeredocEnds (s : String) :
    goTrimRight (goTrimLeft s "\n") "\n\t" = stripHeredocEnds s := by
  show String.mk ((trimLeftList "\n\t".data (trimLeftList "\n".data s.data).reverse).reverse) = _
  rw [show "\n".data = ['\n'] from rfl, show "\n\t".data = ['\n', '\t'] from rfl,
    trimLeftList_newline, trimLeftList_newline_tab]
  rfl

/-- Claim-side trimming as literally stated by the specification sentence
"Strip one leading `\n` and trailing `\n`/`\t`": remove at most one leading
newline, then all trailing newlines and tabs. -/
def claimStripOne (s : String) : String :=
  let s₁ := match s.data with
    | '\n' :: rest => String.mk rest
    | _ => s
  goTrimRight s₁ "\n\t"

/-- CLAIM C5 (counterexample). The claim states the elaboration strips
exactly one leading newline; on the piece list `["\n\nhello"]` with a plain
`<<` opener the code strips both leading newlines and produces `"hello"`,
while the claimed trimming would produce `"\nhello"`. -/
theorem emitHeredocPieces_one_newline_counterexample :
    emitHeredocPieces "<<END" "END" ["\n\nhello"] NewRegister =
      Except.ok { val := Value.str "hello" } ∧
    claimStripOne "\n\nhello" = "\nhello" ∧
    ("hello" : String) ≠ "\nhello" :=
  ⟨rfl, rfl, by decide⟩

/-- CLAIM C5 (amended). For every heredoc, after joining its fragments the
elaboration strips all leading `\n` and all trailing `\n`/`\t` characters;
if the opener is `<<-` it then applies common-indent removal; if the opener
is `<<~` it trims surrounding whitespace, splits the text into lines, trims
each line, and joins them with single spaces; otherwise the trimmed text is
the result; in particular the heredoc
`<<-END\n\thello\n\tworld\nEND` evaluates to the string
`"hello\nworld"`. -/
theorem emitHeredocPieces_spec :
    (∀ start terminate pieces ret,
      (goTrimSuffix start terminate = "<<-" →
        emitHeredocPieces start terminate pieces ret =
          Except.ok (ret.set (Value.str (dedent (stripHeredocEnds (String.join pieces)))))) ∧
      (goTrimSuffix start terminate = "<<~" →
        emitHeredocPieces start terminate pieces ret =
          Except.ok (ret.set (Value.str (String.intercalate " "
            ((scanLines (goTrimSpace (stripHeredocEnds (String.join pieces)))).map
              goTrimSpace))))) ∧
      (goTrimSuffix start terminate ≠ "<<-" → goTrimSuffix start terminate ≠ "<<~" →
        emitHeredocPieces start terminate pieces ret =
          Except.ok (ret.set (Value.str (stripHeredocEnds (String.join pieces)))))) ∧
    emitHeredocPieces "<<-END" "END" ["\n\thello\n\tworld\n"] NewRegister =
      Except.ok { val := Value.str "hello\nworld" } := by
  refine ⟨fun start terminate pieces ret => ?_, rfl⟩
  rw [show emitHeredocPieces start terminate pieces ret =
      (match goTrimSuffix start terminate with
       | "<<-" => Except.ok (ret.set (Value.str (dedent
           (goTrimRight (goTrimLeft (String.join pieces) "\n") "\n\t"))))
       | "<<~" => Except.ok (ret.set (Value.str (String.intercalate " "
           ((scanLines (goTrimSpace
             (goTrimRight (goTrimLeft (String.join pieces) "\n") "\n\t"))).map goTrimSpace))))
       | _ => Except.ok (ret.set (Value.str
           (goTrimRight (goTrimLeft (String.join pieces) "\n") "\n\t")))) from rfl]
  rw [goTrim_eq_stripHeredocEnds]
  refine ⟨fun h => by rw [h]; rfl, fun h => by rw [h]; rfl, fun h₁ h₂ => ?_⟩
  split
  · exact absurd ‹goTrimSuffix start terminate = "<<-"› h₁
  · exact absurd ‹goTrimSuffix start terminate = "<<~"› h₂
  · rfl

/-- Closed instance of the amended C5 theorem: a plain `<<` opener returns
the trimmed joined text unchanged. -/
theorem emitHeredocPieces_spec_witness :
    emitHeredocPieces "<<END" "END" ["  hi\n"] NewRegister =
      Except.ok (NewRegister.set (Value.str (stripHeredocEnds (String.join ["  hi\n"])))) :=
  (emitHeredocPieces_spec.1 "<<END" "END" ["  hi\n"] NewRegister).2.2
    (by decide) (by decide)

/-! ### Concrete fixtures used by the witnesses -/

/-- A callable with the bare prototype signature returning the scratch
filesystem. -/
def scratchCallable : Callable :=
  { ins := PrototypeIn, variadic := false, outs := PrototypeOut,
    impl := fun _ => (Value.fs 0, Option.none) }

/-- A one-entry registry holding `scratch` under the filesystem kind. -/
def tblEx : CallTable := [(Kind.filesystem, [("scratch", scratchCallable)])]

/-- A host whose debugger is a no-op and whose directory holds no files. -/
def hostEx : Host :=
  { debug := Except.ok (), resolve := fun _ _ => Except.ok 0,
    openFile := fun _ _ => Except.error OpenErr.notExist,
    parse := fun _ => Except.error (Err.hostFailure "unused"),
    semanticPass := fun _ => Except.ok (), lint := fun _ => Except.ok (),
    check := fun _ => Except.ok (), checkReferences := fun _ _ => Except.ok () }

/-- A code generator over `hostEx` with no extra solve options. -/
def cgEx : CodeGen := { host := hostEx, extraSolveOpts := [] }

/-- The function `fs default() { scratch; }`. -/
def defaultFd : FuncDecl :=
  FuncDecl.mk "default" [] (Option.some (BlockStmt.mk Kind.filesystem
    [Stmt.call (CallStmt.mk { ident := "scratch", reference := Option.none } [] []
      Option.none Option.none false)]))

/-- Scope object for `defaultFd`. -/
def defaultObj : Object :=
  { kind := Kind.filesystem, node := ObjNode.funcDecl defaultFd, data := ObjData.none }

/-- Scope object for the `scratch` builtin. -/
def scratchObj : Object :=
  { kind := Kind.filesystem,
    node := ObjNode.builtinDecl { name := "scratch", kinds := [Kind.filesystem] },
    data := ObjData.none }

/-- A module whose root scope defines `default` and the `scratch` builtin. -/
def modEx : Module :=
  { filename := "ex.hlb", directory := 0,
    objects := [("default", defaultObj), ("scratch", scratchObj)] }

/-- Scope object for a function parameter bound to a one-element option
list. -/
def paramObjEx : Object :=
  { kind := Kind.option,
    node := ObjNode.field { kind := Kind.option, name := "p", modifier := false },
    data := ObjData.value (Value.opt [Opt.frag 2]) }

/-- A module whose root scope holds the bound parameter object. -/
def modParam : Module :=
  { filename := "param.hlb", directory := 0, objects := [("p", paramObjEx)] }

/-! ### C9: prototype conformance at registry initialisation -/

/-- Claim-side conformance of one reflected parameter position: an
interface must implement the prototype type, a non-interface must equal
it. -/
def protoConforms (param proto : RType) : Prop :=
  if param.isIface = true then param.implementsT proto = true else param = proto

/-- Mismatch as computed by `CheckPrototype` is the negation of
conformance. -/
theorem protoMismatch_false_iff (param proto : RType) :
    protoMismatch param proto = false ↔ protoConforms param proto := by
  by_cases h : param.isIface = true <;>
    simp [protoMismatch, protoConforms, h]

/-- Every callable of the registry, in registry order. -/
def registryCallables (tbl : CallTable) : List Callable :=
  ((tbl.map Prod.snd).flatten).map Prod.snd

/-- The failure collection loop visits exactly the registry callables. -/
theorem initCallablesErrs_eq (tbl : CallTable) :
    initCallablesErrs tbl = (registryCallables tbl).filterMap
      (fun c => match CheckPrototype c with
        | Except.error e => Option.some e
        | Except.ok _ => Option.none) := rfl

/-- CLAIM C9 (amended). At registry initialisation every callable in the
`Callables` table is validated against the reflected prototype signature
exactly once: its `Call` method must take the prototype inputs as a prefix
(each parameter equal to, or implementing, the corresponding prototype
type) and produce exactly as many outputs as the prototype, each equal to
or implementing the corresponding prototype output; all mismatching
callables are reported together in one concatenated diagnostic and
initialisation fails if any callable mismatches. -/
theorem initCallables_prototype_spec :
    (∀ c : Callable, CheckPrototype c = Except.ok () ↔
      (PrototypeIn.length ≤ c.ins.length ∧ c.outs.length = PrototypeOut.length ∧
       (∀ i < PrototypeIn.length,
         protoConforms (c.ins.getD i rtypeDefault) (PrototypeIn.getD i rtypeDefault)) ∧
       (∀ i < PrototypeOut.length,
         protoConforms (c.outs.getD i rtypeDefault) (PrototypeOut.getD i rtypeDefault)))) ∧
    (∀ tbl : CallTable, initCallables tbl = Except.ok () ↔
      ∀ c ∈ registryCallables tbl, CheckPrototype c = Except.ok ()) ∧
    (∀ (tbl : CallTable) (es : List ProtoErr), initCallables tbl = Except.error es →
      es = (registryCallables tbl).filterMap (fun c =>
        match CheckPrototype c with
        | Except.error e => Option.some e
        | Except.ok _ => Option.none) ∧ es ≠ []) := by
  refine ⟨fun c => ?_, fun tbl => ?_, fun tbl es h => ?_⟩
  · constructor
    · intro h
      rw [CheckPrototype] at h
      split at h
      · exact absurd h (by simp)
      · rename_i hlen
        push_neg at hlen
        split at h
        · exact absurd h (by simp)
        · rename_i hin
          split at h
          · exact absurd h (by simp)
          · rename_i hout
            refine ⟨hlen.1, hlen.2, ?_, ?_⟩
            · intro i hi
              rw [← protoMismatch_false_iff]
              cases hmis : protoMismatch (c.ins.getD i rtypeDefault)
                  (PrototypeIn.getD i rtypeDefault) with
              | false => rfl
              | true =>
                exact absurd (List.any_eq_true.mpr ⟨i, List.mem_range.mpr hi, hmis⟩) hin
            · intro i hi
              rw [← protoMismatch_false_iff]
              cases hmis : protoMismatch (c.outs.getD i rtypeDefault)
                  (PrototypeOut.getD i rtypeDefault) with
              | false => rfl
              | true =>
                exact absurd (List.any_eq_true.mpr ⟨i, List.mem_range.mpr hi, hmis⟩) hout
    · rintro ⟨hin, hout, hcin, hcout⟩
      have hcin' : ¬ ((List.range PrototypeIn.length).any (fun i =>
          protoMismatch (c.ins.getD i rtypeDefault) (PrototypeIn.getD i rtypeDefault)) = true) := by
        intro hany
        obtain ⟨i, hi, hmis⟩ := List.any_eq_true.mp hany
        rw [List.mem_range] at hi
        rw [(protoMismatch_false_iff _ _).mpr (hcin i hi)] at hmis
        exact absurd hmis (by simp)
      have hcout' : ¬ ((List.range PrototypeOut.length).any (fun i =>
          protoMismatch (c.outs.getD i rtypeDefault) (PrototypeOut.getD i rtypeDefault)) = true) := by
        intro hany
        obtain ⟨i, hi, hmis⟩ := List.any_eq_true.mp hany
        rw [List.mem_range] at hi
        rw [(protoMismatch_false_iff _ _).mpr (hcout i hi)] at hmis
        exact absurd hmis (by simp)
      rw [CheckPrototype, if_neg (by push_neg; exact ⟨by omega, hout⟩), if_neg hcin',
        if_neg hcout']
  · constructor
    · intro h c hc
      by_cases hpos : 0 < (initCallablesErrs tbl).length
      · rw [initCallables, if_pos hpos] at h
        exact absurd h (by simp)
      · have hnil : initCallablesErrs tbl = [] := by
          cases hf : initCallablesErrs tbl with
          | nil => rfl
          | cons x xs => rw [hf] at hpos; exact absurd (by simp) hpos
        cases hcp : CheckPrototype c with
        | ok u => cases u; rfl
        | error e =>
          have hmem : e ∈ initCallablesErrs tbl := by
            rw [initCallablesErrs_eq]
            exact List.mem_filterMap.mpr ⟨c, hc, by rw [hcp]⟩
          rw [hnil] at hmem
          exact absurd hmem (List.not_mem_nil e)
    · intro hall
      have hnil : initCallablesErrs tbl = [] := by
        rw [initCallablesErrs_eq, List.filterMap_eq_nil_iff]
        intro c hc
        rw [hall c hc]
      rw [initCallables, if_neg (by rw [hnil]; simp)]
  · by_cases hpos : 0 < (initCallablesErrs tbl).length
    · rw [initCallables, if_pos hpos] at h
      cases h
      refine ⟨initCallablesErrs_eq tbl, ?_⟩
      intro hnil
      rw [hnil] at hpos
      exact absurd hpos (by simp)
    · rw [initCallables, if_neg hpos] at h
      exact absurd h (by simp)

/-- An output type that is not the prototype's `error` interface but whose
method set satisfies it. -/
def fancyErrorType : RType := RType.named "fancyError" true ["error", "fancyError"]

/-- A callable with prototype inputs whose second output implements `error`
without being it. -/
def fancyOutsCallable : Callable :=
  { ins := PrototypeIn, variadic := false,
    outs := [RType.named "Value" true ["Value"], fancyErrorType],
    impl := fun _ => (Value.zero, Option.none) }

/-- CLAIM C9 (counterexample). The claim as stated requires a passing
callable to produce exactly the prototype outputs; `fancyOutsCallable`
passes `CheckPrototype` although its outputs differ from the prototype
outputs, because an interface output is accepted whenever it implements
the prototype output type. -/
theorem checkPrototype_exact_outputs_counterexample :
    CheckPrototype fancyOutsCallable = Except.ok () ∧
    fancyOutsCallable.outs ≠ PrototypeOut :=
  ⟨rfl, by decide⟩

/-- Closed instance of the amended C9 theorem: the one-entry example
registry initialises successfully because its only callable conforms. -/
theorem initCallables_prototype_spec_witness :
    initCallables tblEx = Except.ok () :=
  (initCallables_prototype_spec.2.1 tblEx).mpr (by
    intro c hc
    have : c = scratchCallable := by
      simpa [registryCallables, tblEx] using hc
    rw [this]
    rfl)

/-! ### C3: option append for parameter fields -/

/-- CLAIM C3. When `EmitIdentExpr` resolves an identifier to a function
parameter `Field`: if both the return register's current value and the
parameter's bound value have kind `Option`, the register is set to the
concatenation of the current option list followed by the parameter's
option list, in that order; in every other case the register is set to the
parameter's value, replacing the current one. -/
theorem emitIdentExpr_param_option_append :
    ∀ tbl cg fuel ctx scope ie lookupName args opts b ret st obj p pv,
      Scope.lookupName scope lookupName = Option.some obj →
      obj.node = ObjNode.field p →
      obj.data = ObjData.value pv →
      ((∀ xs ys, ret.val = Value.opt xs → pv = Value.opt ys →
        EmitIdentExpr tbl cg (fuel + 1) ctx scope ie lookupName args opts b ret st =
          Except.ok (ret.set (Value.opt (xs ++ ys)), st)) ∧
       (¬ (pv.kind = Kind.option ∧ ret.val.kind = Kind.option) →
        EmitIdentExpr tbl cg (fuel + 1) ctx scope ie lookupName args opts b ret st =
          Except.ok (ret.set pv, st))) := by
  intro tbl cg fuel ctx scope ie lookupName args opts b ret st obj p pv hl hn hd
  constructor
  · intro xs ys hx hy
    simp only [EmitIdentExpr, hl, hn, hd, NewValue, hx, hy, Value.kind, Value.option]
    rfl
  · intro hno
    have hcond : pv.kind ≠ Kind.option ∨ ret.val.kind ≠ Kind.option := by tauto
    simp only [EmitIdentExpr, hl, hn, hd, NewValue]
    rw [if_pos hcond]

/-- Closed instance of the C3 theorem: appending the register's current
option list and the parameter's bound option list. -/
theorem emitIdentExpr_param_option_append_witness :
    EmitIdentExpr [] cgEx 1 emptyContext { frames := [], mod := modParam }
      { ident := "p", reference := Option.none } "p" [] [] Option.none
      { val := Value.opt [Opt.frag 1] } initialSt =
      Except.ok ({ val := Value.opt [Opt.frag 1, Opt.frag 2] }, initialSt) :=
  (emitIdentExpr_param_option_append [] cgEx 0 emptyContext
      { frames := [], mod := modParam } { ident := "p", reference := Option.none } "p"
      [] [] Option.none { val := Value.opt [Opt.frag 1] } initialSt paramObjEx
      { kind := Kind.option, name := "p", modifier := false }
      (Value.opt [Opt.frag 2]) rfl rfl rfl).1 [Opt.frag 1] [Opt.frag 2] rfl rfl

/-! ### C10 and C4: builtin dispatch, extra solve options, variadic calls -/

/-- The context after the `WithBinding` step of `EmitBuiltinDecl`. -/
def bindCtx (ctx : Context) (b : Option Binding) : Context :=
  match b with
  | Option.some bnd => { ctx with binding := Option.some bnd }
  | Option.none => ctx

/-- Installing a binding never changes the frame stack. -/
theorem bindCtx_frames (ctx : Context) (b : Option Binding) :
    (bindCtx ctx b).frames = ctx.frames := by
  cases b <;> rfl

/-- CLAIM C10. For every built-in call dispatched through
`EmitBuiltinDecl`, the option list actually passed to the host callable is
the call's evaluated options followed by every extra solve option
configured on the code generator via `WithExtraSolveOpts`, appended in
configuration order; this happens for every built-in invocation, including
calls that have no `with` clause (the option argument is then the list the
call site passes, possibly empty). -/
theorem emitBuiltinDecl_extra_solve_opts :
    (∀ (host : Host) (batches : List (List Opt)),
      New host (batches.map WithExtraSolveOpts) =
        Except.ok { host := host, extraSolveOpts := batches.flatten }) ∧
    (∀ tbl cg ctx bd args opts b v,
      EmitBuiltinDecl tbl cg ctx bd args opts b v =
        EmitBuiltinDecl tbl { cg with extraSolveOpts := [] } ctx bd args
          (opts ++ cg.extraSolveOpts) b v) ∧
    (∀ tbl cg ctx bd args opts b v c,
      (if ctx.returnType ≠ Kind.none then tbl.find ctx.returnType bd.name
       else findKindCallable tbl bd.name bd.kinds) = Option.some c →
      c.variadic = false → c.ins.length = PrototypeIn.length →
      EmitBuiltinDecl tbl cg ctx bd args opts b v =
        (match c.impl [RVal.rctx (bindCtx ctx b), RVal.client, RVal.value v,
            RVal.opts (opts ++ cg.extraSolveOpts)] with
         | (_, Option.some e) => Except.error (Err.backtrace ctx.frames e)
         | (out, Option.none) => Except.ok out)) := by
  refine ⟨?_, ?_, ?_⟩
  · have happly : ∀ (batches : List (List Opt)) (cg : CodeGen),
        applyOptions cg (batches.map WithExtraSolveOpts) =
          Except.ok { cg with extraSolveOpts := cg.extraSolveOpts ++ batches.flatten } := by
      intro batches
      induction batches with
      | nil => intro cg; simp [applyOptions]
      | cons batch rest ih =>
        intro cg
        simp only [List.map_cons, applyOptions, WithExtraSolveOpts]
        rw [ih]
        simp [List.append_assoc]
    intro host batches
    rw [New, happly]
    simp
  · intro tbl cg ctx bd args opts b v
    simp only [EmitBuiltinDecl, List.append_nil]
  · intro tbl cg ctx bd args opts b v c hres hvar hlen
    cases b with
    | none =>
      simp only [EmitBuiltinDecl, hres, hvar, if_false, Bool.false_eq_true, ite_false]
      rw [if_neg (by
        rw [hlen]
        simp)]
      rw [show ((c.ins.take c.ins.length).drop PrototypeIn.length) = [] from by
        rw [List.take_length, ← hlen, List.drop_length]]
      simp [reflectFixed, bindCtx]
    | some bnd =>
      simp only [EmitBuiltinDecl, hres, hvar, if_false, Bool.false_eq_true, ite_false]
      rw [if_neg (by
        rw [hlen]
        simp)]
      rw [show ((c.ins.take c.ins.length).drop PrototypeIn.length) = [] from by
        rw [List.take_length, ← hlen, List.drop_length]]
      simp [reflectFixed, bindCtx]

/-- A callable that answers with the option list it received, to exhibit
the options actually passed. -/
def echoOptsCallable : Callable :=
  { ins := PrototypeIn, variadic := false, outs := PrototypeOut,
    impl := fun rvs =>
      match rvs with
      | [_, _, _, RVal.opts o] => (Value.opt o, Option.none)
      | _ => (Value.zero, Option.some Err.badCast) }

/-- Registry holding the echoing callable under the option kind. -/
def tblEcho : CallTable := [(Kind.option, [("echo", echoOptsCallable)])]

/-- A code generator configured with two extra solve options. -/
def cgExtras : CodeGen :=
  { host := hostEx, extraSolveOpts := [Opt.solve 1, Opt.solve 2] }

/-- Builtin declaration of the echoing callable. -/
def bdEcho : BuiltinDecl := { name := "echo", kinds := [Kind.option] }

/-- Context hinting the option return type. -/
def ctxOptionHint : Context :=
  { returnType := Kind.option, frames := [], binding := Option.none }

/-- Closed instance of the C10 theorem: configuring extras in two batches
and dispatching a call whose evaluated options are one fragment, the
callable receives the call options followed by both extras in
configuration order. -/
theorem emitBuiltinDecl_extra_solve_opts_witness :
    New hostEx [WithExtraSolveOpts [Opt.solve 1], WithExtraSolveOpts [Opt.solve 2]] =
      Except.ok cgExtras ∧
    EmitBuiltinDecl tblEcho cgExtras ctxOptionHint bdEcho [] [Opt.frag 7] Option.none
      Value.zero = Except.ok (Value.opt [Opt.frag 7, Opt.solve 1, Opt.solve 2]) :=
  ⟨emitBuiltinDecl_extra_solve_opts.1 hostEx [[Opt.solve 1], [Opt.solve 2]],
   (emitBuiltinDecl_extra_solve_opts.2.2 tblEcho cgExtras ctxOptionHint bdEcho []
      [Opt.frag 7] Option.none Value.zero echoOptsCallable rfl rfl rfl).trans rfl⟩

/-- CLAIM C4. When `EmitBuiltinDecl` invokes a host callable: for a
variadic callable every evaluated argument beyond the fixed parameters is
coerced to the variadic tail's element type and passed in order (the
reflected variadic inputs are position-wise the coercions of the trailing
arguments); if the callable returns a non-null error, `EmitBuiltinDecl`
returns that error wrapped with a backtrace drawn from the context's frame
stack and no value is stored (the register-level dispatch propagates the
error without touching the register); otherwise the callable's returned
`Value` becomes the register's new content. -/
theorem emitBuiltinDecl_variadic_spec :
    (∀ (elemT : RType) (vs : List Value) (rvs : List RVal),
      reflectVariadic elemT vs = Except.ok rvs →
      rvs.length = vs.length ∧
      ∀ i (hv : i < vs.length) (hr : i < rvs.length),
        (vs.get ⟨i, hv⟩).reflect elemT = Except.ok (rvs.get ⟨i, hr⟩)) ∧
    (∀ tbl cg ctx bd args opts b v c elemT,
      (if ctx.returnType ≠ Kind.none then tbl.find ctx.returnType bd.name
       else findKindCallable tbl bd.name bd.kinds) = Option.some c →
      c.variadic = true →
      c.ins.getD (c.ins.length - 1) rtypeDefault = RType.slice elemT →
      ¬ ((args.length : Int) < ((c.ins.length - 1 : Nat) : Int) - (PrototypeIn.length : Int)) →
      ∀ fixedIns varIns,
        reflectFixed (((c.ins.take (c.ins.length - 1)).drop PrototypeIn.length).zip args) =
          Except.ok fixedIns →
        reflectVariadic elemT (args.drop ((c.ins.length - 1) - PrototypeIn.length)) =
          Except.ok varIns →
        EmitBuiltinDecl tbl cg ctx bd args opts b v =
          (match c.impl ([RVal.rctx (bindCtx ctx b), RVal.client, RVal.value v,
              RVal.opts (opts ++ cg.extraSolveOpts)] ++ fixedIns ++ varIns) with
           | (_, Option.some e) => Except.error (Err.backtrace ctx.frames e)
           | (out, Option.none) => Except.ok out)) ∧
    (∀ tbl cg fuel ctx scope ie lookupName args opts b ret st obj bd,
      Scope.lookupName scope lookupName = Option.some obj →
      obj.node = ObjNode.builtinDecl bd →
      EmitIdentExpr tbl cg (fuel + 1) ctx scope ie lookupName args opts b ret st =
        (match EmitBuiltinDecl tbl cg ctx bd args opts b ret.val with
         | Except.error e => Except.error e
         | Except.ok v => Except.ok (ret.set v, st))) := by
  refine ⟨?_, ?_, ?_⟩
  · intro elemT vs
    induction vs with
    | nil =>
      intro rvs h
      simp only [reflectVariadic] at h
      cases h
      exact ⟨rfl, fun i hv _ => absurd hv (by simp)⟩
    | cons a rest ih =>
      intro rvs h
      simp only [reflectVariadic] at h
      cases ha : a.reflect elemT with
      | error e => rw [ha] at h; exact absurd h (by simp)
      | ok rv =>
        rw [ha] at h
        cases hrest : reflectVariadic elemT rest with
        | error e => rw [hrest] at h; exact absurd h (by simp)
        | ok rvs' =>
          rw [hrest] at h
          cases h
          obtain ⟨hlen, hget⟩ := ih rvs' hrest
          refine ⟨by simp [hlen], ?_⟩
          intro i hv hr
          cases i with
          | zero => simpa using ha
          | succ j =>
            have hv' : j < rest.length := by simpa using hv
            have hr' : j < rvs'.length := by simpa using hr
            simpa using hget j hv' hr'
  · intro tbl cg ctx bd args opts b v c elemT hres hvar hslice harity fixedIns varIns
      hfix hvariadic
    cases b with
    | none =>
      simp only [EmitBuiltinDecl, hres, hvar, if_true]
      rw [if_neg harity, hslice]
      simp only [RType.elemT, hfix, hvariadic, bindCtx]
    | some bnd =>
      simp only [EmitBuiltinDecl, hres, hvar, if_true]
      rw [if_neg harity, hslice]
      simp only [RType.elemT, hfix, hvariadic, bindCtx]
  · intro tbl cg fuel ctx scope ie lookupName args opts b ret st obj bd hl hn
    simp only [EmitIdentExpr, hl, hn]

/-- The reflected string type used by the variadic example callable. -/
def stringRType : RType := RType.named "string" false []

/-- A variadic callable: one fixed string parameter and a variadic string
tail; it concatenates every string it receives. -/
def concatCallable : Callable :=
  { ins := PrototypeIn ++ [stringRType, RType.slice stringRType],
    variadic := true, outs := PrototypeOut,
    impl := fun rvs =>
      (Value.str (String.join (rvs.filterMap (fun rv =>
        match rv with
        | RVal.rstr s => Option.some s
        | _ => Option.none))), Option.none) }

/-- Registry holding the variadic callable under the string kind. -/
def tblVar : CallTable := [(Kind.str, [("concat", concatCallable)])]

/-- Builtin declaration of the variadic callable. -/
def bdVar : BuiltinDecl := { name := "concat", kinds := [Kind.str] }

/-- Context hinting the string return type. -/
def ctxStrHint : Context :=
  { returnType := Kind.str, frames := [], binding := Option.none }

/-- Closed instance of the C4 theorem: of three string arguments the first
binds the fixed parameter and the remaining two are coerced at the
variadic element type and passed in order. -/
theorem emitBuiltinDecl_variadic_spec_witness :
    EmitBuiltinDecl tblVar cgEx ctxStrHint bdVar
      [Value.str "a", Value.str "b", Value.str "c"] [] Option.none Value.zero =
      Except.ok (Value.str "abc") :=
  (emitBuiltinDecl_variadic_spec.2.1 tblVar cgEx ctxStrHint bdVar
    [Value.str "a", Value.str "b", Value.str "c"] [] Option.none Value.zero concatCallable
    stringRType rfl rfl rfl (by decide) [RVal.rstr "a"] [RVal.rstr "b", RVal.rstr "c"]
    rfl rfl).trans rfl

/-! ### C2: block statements chain through the single return register -/

/-- One statement's step in a block, as `EmitBlock` performs it: a call
statement resolves its callee and is emitted into a register seeded with
the incoming value, an expression statement is emitted into that register
directly; the step's result is the value the statement leaves in the
register. -/
def blockStep (tbl : CallTable) (cg : CodeGen) (fuel : Nat) (ctx : Context) (scope : Scope)
    (b : Option Binding) (stmt : Stmt) (v : Value) : M Value := fun st =>
  match stmt with
  | Stmt.call cs =>
    (match lookupCall tbl cg fuel ctx scope cs.name.ident st with
     | Except.error e' => Except.error e'
     | Except.ok (_, st₁) =>
       match EmitCallStmt tbl cg fuel ctx scope cs b { val := v } st₁ with
       | Except.error e' => Except.error e'
       | Except.ok (r₂, st₂) => Except.ok (r₂.val, st₂))
  | Stmt.expr e =>
    (match EmitExpr tbl cg fuel ctx scope e [] [] b { val := v } st with
     | Except.error e' => Except.error e'
     | Except.ok (r, st₁) => Except.ok (r.val, st₁))

/-- The fold of a statement list over the incoming value: each statement
receives exactly the value produced by its predecessor, and the fold's
result is the value produced by the last statement. -/
def chainStmts (tbl : CallTable) (cg : CodeGen) :
    Nat → Context → Scope → List Stmt → Option Binding → Value → M Value
  | 0, _, _, _, _, _ => fun _ => Except.error Err.outOfFuel
  | fuel + 1, ctx, scope, stmts, b, v => fun st =>
    match stmts with
    | [] => Except.ok (v, st)
    | stmt :: rest =>
      match blockStep tbl cg fuel ctx scope b stmt v st with
      | Except.error e' => Except.error e'
      | Except.ok (v', st') => chainStmts tbl cg fuel ctx scope rest b v' st'

/-- The statement loop of `EmitBlock` is exactly the fold of the statements
over the register's value. -/
theorem emitStmts_eq_chain (tbl : CallTable) (cg : CodeGen) (ctx : Context) (scope : Scope)
    (b : Option Binding) :
    ∀ (fuel : Nat) (stmts : List Stmt) (ret : Register) (st : St),
      emitStmts tbl cg fuel ctx scope stmts b ret st =
        (match chainStmts tbl cg fuel ctx scope stmts b ret.val st with
         | Except.error e' => Except.error e'
         | Except.ok (v, st') => Except.ok ({ val := v }, st')) := by
  intro fuel
  induction fuel with
  | zero => intro stmts ret st; rfl
  | succ fuel ih =>
    intro stmts ret st
    obtain ⟨rv⟩ := ret
    cases stmts with
    | nil => rfl
    | cons stmt rest =>
      cases stmt with
      | call cs =>
        cases hl : lookupCall tbl cg fuel ctx scope cs.name.ident st with
        | error e => simp [emitStmts, chainStmts, blockStep, hl]
        | ok p =>
          obtain ⟨u, st₁⟩ := p
          cases hcs : EmitCallStmt tbl cg fuel ctx scope cs b { val := rv } st₁ with
          | error e => simp [emitStmts, chainStmts, blockStep, hl, hcs]
          | ok q =>
            obtain ⟨r₂, st₂⟩ := q
            simp only [emitStmts, chainStmts, blockStep, hl, hcs]
            rw [ih rest (Register.set { val := rv } r₂.val) st₂]
            rfl
      | expr e =>
        cases he : EmitExpr tbl cg fuel ctx scope e [] [] b { val := rv } st with
        | error e' => simp [emitStmts, chainStmts, blockStep, he]
        | ok p =>
          obtain ⟨r₁, st₁⟩ := p
          simp only [emitStmts, chainStmts, blockStep, he]
          rw [ih rest r₁ st₁]

/-- CLAIM C2. For every block emitted by `EmitBlock`, all statements are
chained on the block's single return register in source order: when the
register is forced, each statement receives as its incoming value exactly
the forced value produced by its predecessor (the register's prior value
for the first statement), and the register's final value is the value
produced by the last statement. Formally: a nil block leaves the register
untouched, and a block evaluates to the fold `chainStmts` of its
statements over the register's value under the block's kind, where the
fold starts from the register's prior value, feeds each statement's result
to the next (third and fourth conjuncts), and ends with the last produced
value in the register. -/
theorem emitBlock_chains_statements :
    (∀ tbl cg fuel ctx scope b ret st,
      EmitBlock tbl cg (fuel + 1) ctx scope Option.none b ret st = Except.ok (ret, st)) ∧
    (∀ tbl cg fuel ctx scope kind stmts b ret st,
      EmitBlock tbl cg (fuel + 1) ctx scope (Option.some (BlockStmt.mk kind stmts)) b ret st =
        (match chainStmts tbl cg fuel { ctx with returnType := kind } scope stmts b
            ret.val st with
         | Except.error e' => Except.error e'
         | Except.ok (v, st') => Except.ok ({ val := v }, st'))) ∧
    (∀ tbl cg fuel ctx scope stmt rest b v st,
      chainStmts tbl cg (fuel + 1) ctx scope (stmt :: rest) b v st =
        (match blockStep tbl cg fuel ctx scope b stmt v st with
         | Except.error e' => Except.error e'
         | Except.ok (v', st') => chainStmts tbl cg fuel ctx scope rest b v' st')) ∧
    (∀ tbl cg fuel ctx scope b v st,
      chainStmts tbl cg (fuel + 1) ctx scope [] b v st = Except.ok (v, st)) := by
  refine ⟨fun tbl cg fuel ctx scope b ret st => rfl,
    fun tbl cg fuel ctx scope kind stmts b ret st => ?_,
    fun tbl cg fuel ctx scope stmt rest b v st => rfl,
    fun tbl cg fuel ctx scope b v st => rfl⟩
  show emitStmts tbl cg fuel { ctx with returnType := kind } scope stmts b ret st = _
  rw [emitStmts_eq_chain]

/-! ### C6: interpreted string literals -/

/-- One fragment's contribution, as `EmitStringLit` computes it: text
contributes itself, the escape `\$` a literal dollar, every other escape
its decoded character, and an interpolated expression the string coercion
of its value evaluated in a fresh register. -/
def fragmentPiece (tbl : CallTable) (cg : CodeGen) (fuel : Nat) (ctx : Context) (scope : Scope)
    (f : StringFragment) : M String := fun st =>
  match f with
  | StringFragment.escaped c =>
    if c = '$' then Except.ok ("$", st)
    else
      (match unquoteEscape c with
       | Except.error e' => Except.error e'
       | Except.ok ch => Except.ok (String.mk [ch], st))
  | StringFragment.interpolated ie =>
    (match EmitExpr tbl cg fuel ctx scope ie [] [] Option.none NewRegister st with
     | Except.error e' => Except.error e'
     | Except.ok (r, st₁) =>
       match r.val.toStr with
       | Except.error e' => Except.error e'
       | Except.ok piece => Except.ok (piece, st₁))
  | StringFragment.text s => Except.ok (s, st)

/-- The fold of the fragment contributions, in order. -/
def chainPieces (tbl : CallTable) (cg : CodeGen) :
    Nat → Context → Scope → List StringFragment → M (List String)
  | 0, _, _, _ => fun _ => Except.error Err.outOfFuel
  | fuel + 1, ctx, scope, frags => fun st =>
    match frags with
    | [] => Except.ok ([], st)
    | f :: rest =>
      match fragmentPiece tbl cg fuel ctx scope f st with
      | Except.error e' => Except.error e'
      | Except.ok (piece, st₁) =>
        match chainPieces tbl cg fuel ctx scope rest st₁ with
        | Except.error e' => Except.error e'
        | Except.ok (pieces, st₂) => Except.ok (piece :: pieces, st₂)

/-- The fragment loop of `EmitStringLit` is exactly the fold of the
per-fragment contributions. -/
theorem emitStringPieces_eq_chain (tbl : CallTable) (cg : CodeGen) (ctx : Context)
    (scope : Scope) :
    ∀ (fuel : Nat) (frags : List StringFragment) (st : St),
      emitStringPieces tbl cg fuel ctx scope frags st =
        chainPieces tbl cg fuel ctx scope frags st := by
  intro fuel
  induction fuel with
  | zero => intro frags st; rfl
  | succ fuel ih =>
    intro frags st
    cases frags with
    | nil => rfl
    | cons f rest =>
      cases f with
      | escaped c =>
        by_cases hc : c = '$'
        · subst hc
          simp [emitStringPieces, chainPieces, fragmentPiece, ih]
        · cases hu : unquoteEscape c with
          | error e => simp [emitStringPieces, chainPieces, fragmentPiece, hc, hu]
          | ok ch => simp [emitStringPieces, chainPieces, fragmentPiece, hc, hu, ih]
      | interpolated ie =>
        cases he : EmitExpr tbl cg fuel ctx scope ie [] [] Option.none NewRegister st with
        | error e => simp [emitStringPieces, chainPieces, fragmentPiece, he]
        | ok p =>
          obtain ⟨r, st₁⟩ := p
          cases hs : r.val.toStr with
          | error e => simp [emitStringPieces, chainPieces, fragmentPiece, he, hs]
          | ok piece => simp [emitStringPieces, chainPieces, fragmentPiece, he, hs, ih]
      | text s => simp [emitStringPieces, chainPieces, fragmentPiece, ih]

/-- The function `string x() { "world"; }`. -/
def xFd : FuncDecl :=
  FuncDecl.mk "x" [] (Option.some (BlockStmt.mk Kind.str
    [Stmt.expr (Expr.basicLit (BasicLit.strLit [StringFragment.text "world"]))]))

/-- Scope object for `xFd`. -/
def xObj : Object :=
  { kind := Kind.str, node := ObjNode.funcDecl xFd, data := ObjData.none }

/-- A module whose root scope defines `x`. -/
def modX : Module :=
  { filename := "x.hlb", directory := 0, objects := [("x", xObj)] }

/-- Fragments of the literal `"hello $x"`. -/
def helloFrags : List StringFragment :=
  [StringFragment.text "hello ",
   StringFragment.interpolated (Expr.callExpr { ident := "x", reference := Option.none } [] [])]

/-- Fragments of the literal `"price \$5"`. -/
def priceFrags : List StringFragment :=
  [StringFragment.text "price ", StringFragment.escaped '$', StringFragment.text "5"]

/-- CLAIM C6. Evaluating an interpreted string literal joins its fragments
in order, where a `Text` fragment contributes its text, the `Escaped`
fragment `\$` contributes a literal `$`, every other `Escaped` fragment
contributes its decoded escape character, and an `Interpolated` fragment
contributes the string coercion of its evaluated expression (the first
conjunct reduces `EmitStringLit` to the join of the per-fragment fold
`chainPieces` of exactly those contributions); with a function `x`
returning `"world"`, the literal `"hello $x"` evaluates to
`"hello world"`, and `"price \$5"` evaluates to `"price $5"`. -/
theorem emitStringLit_fragments_spec :
    (∀ tbl cg fuel ctx scope frags ret st,
      EmitStringLit tbl cg (fuel + 1) ctx scope frags ret st =
        (match chainPieces tbl cg fuel ctx scope frags st with
         | Except.error e' => Except.error e'
         | Except.ok (pieces, st₁) =>
           Except.ok (ret.set (Value.str (String.join pieces)), st₁))) ∧
    EmitStringLit tblEx cgEx 20 emptyContext { frames := [], mod := modX } helloFrags
      NewRegister initialSt =
      Except.ok ({ val := Value.str "hello world" }, initialSt) ∧
    EmitStringLit tblEx cgEx 20 emptyContext { frames := [], mod := modX } priceFrags
      NewRegister initialSt =
      Except.ok ({ val := Value.str "price $5" }, initialSt) := by
  refine ⟨fun tbl cg fuel ctx scope frags ret st => ?_, rfl, rfl⟩
  show (match emitStringPieces tbl cg fuel ctx scope frags st with
    | Except.error e' => Except.error e'
    | Except.ok (pieces, st₁) =>
      Except.ok (ret.set (Value.str (String.join pieces)), st₁)) = _
  rw [emitStringPieces_eq_chain]

/-! ### C1: Generate -/

/-- State-threading map over a list, failing at the first error. -/
def mapMState {α β : Type} (f : α → M β) : List α → M (List β)
  | [] => fun st => Except.ok ([], st)
  | a :: rest => fun st =>
    match f a st with
    | Except.error e' => Except.error e'
    | Except.ok (bv, st₁) =>
      match mapMState f rest st₁ with
      | Except.error e' => Except.error e'
      | Except.ok (bs, st₂) => Except.ok (bv :: bs, st₂)

/-- The evaluation `Generate` performs for a single (defined) target:
debugger yield, identifier emission into a fresh register, request
conversion of the forced value. -/
def targetRequest (tbl : CallTable) (cg : CodeGen) (fuel : Nat) (mod : Module)
    (t : Target) : M Request := fun st =>
  match cg.host.debug with
  | Except.error e' => Except.error e'
  | Except.ok _ =>
    match EmitIdentExpr tbl cg fuel emptyContext { frames := [], mod := mod }
        { ident := t.name, reference := Option.none } t.name [] [] Option.none
        NewRegister st with
    | Except.error e' => Except.error e'
    | Except.ok (r, st₁) =>
      match r.val.request with
      | Except.error e' => Except.error e'
      | Except.ok req => Except.ok (req, st₁)

/-- One target's processing including the root-scope definedness check. -/
def checkedTargetRequest (tbl : CallTable) (cg : CodeGen) (fuel : Nat) (mod : Module)
    (t : Target) : M Request := fun st =>
  match mod.objects.lookup t.name with
  | Option.none => Except.error (Err.targetNotDefined t.name mod.filename)
  | Option.some _ => targetRequest tbl cg fuel mod t st

/-- The target loop of `Generate` is the state-threading map of the checked
per-target request over the targets. -/
theorem generateLoop_eq_mapMState (tbl : CallTable) (cg : CodeGen) (fuel : Nat)
    (mod : Module) :
    ∀ (targets : List Target) (st : St),
      generateLoop tbl cg fuel mod targets st =
        mapMState (checkedTargetRequest tbl cg fuel mod) targets st := by
  intro targets
  induction targets with
  | nil => intro st; rfl
  | cons t rest ih =>
    intro st
    cases hlk : mod.objects.lookup t.name with
    | none => simp [generateLoop, mapMState, checkedTargetRequest, targetRequest, hlk]
    | some o =>
      cases hd : cg.host.debug with
      | error e => simp [generateLoop, mapMState, checkedTargetRequest, targetRequest, hlk, hd]
      | ok u =>
        cases he : EmitIdentExpr tbl cg fuel emptyContext { frames := [], mod := mod }
            { ident := t.name, reference := Option.none } t.name [] [] Option.none
            NewRegister st with
        | error e =>
          simp [generateLoop, mapMState, checkedTargetRequest, targetRequest, hlk, hd, he]
        | ok p =>
          obtain ⟨r, st₁⟩ := p
          cases hr : r.val.request with
          | error e =>
            simp [generateLoop, mapMState, checkedTargetRequest, targetRequest, hlk, hd, he, hr]
          | ok req =>
            simp only [generateLoop, mapMState, checkedTargetRequest, targetRequest,
              hlk, hd, he, hr]
            rw [ih st₁]
            cases mapMState (checkedTargetRequest tbl cg fuel mod) rest st₁ with
            | error e => rfl
            | ok p => obtain ⟨reqs, st₂⟩ := p; rfl

/-- A successful state-threading map produces one output per input. -/
theorem mapMState_ok_length {α β : Type} (f : α → M β) :
    ∀ (l : List α) (st : St) (bs : List β) (st' : St),
      mapMState f l st = Except.ok (bs, st') → bs.length = l.length := by
  intro l
  induction l with
  | nil =>
    intro st bs st' h
    simp only [mapMState] at h
    cases h
    rfl
  | cons a rest ih =>
    intro st bs st' h
    cases hf : f a st with
    | error e => simp [mapMState, hf] at h
    | ok p =>
      obtain ⟨bv, st₁⟩ := p
      cases hrest : mapMState f rest st₁ with
      | error e => simp [mapMState, hf, hrest] at h
      | ok q =>
        obtain ⟨bs', st₂⟩ := q
        simp only [mapMState, hf, hrest] at h
        cases h
        simpa using ih st₁ bs' st' hrest

/-- A successful run of the checked per-target map means every target was
found in the module's root scope. -/
theorem mapMState_checked_defined (tbl : CallTable) (cg : CodeGen) (fuel : Nat)
    (mod : Module) :
    ∀ (targets : List Target) (st : St) (reqs : List Request) (st' : St),
      mapMState (checkedTargetRequest tbl cg fuel mod) targets st =
        Except.ok (reqs, st') →
      ∀ t ∈ targets, (mod.objects.lookup t.name).isSome := by
  intro targets
  induction targets with
  | nil =>
    intro st reqs st' _ t ht
    exact absurd ht (List.not_mem_nil t)
  | cons a rest ih =>
    intro st reqs st' h t ht
    cases hf : checkedTargetRequest tbl cg fuel mod a st with
    | error e => simp [mapMState, hf] at h
    | ok p =>
      obtain ⟨bv, st₁⟩ := p
      cases hrest : mapMState (checkedTargetRequest tbl cg fuel mod) rest st₁ with
      | error e => simp [mapMState, hf, hrest] at h
      | ok q =>
        rcases List.mem_cons.mp ht with hta | htr
        · subst hta
          simp only [checkedTargetRequest] at hf
          cases hlk : mod.objects.lookup t.name with
          | none => simp [hlk] at hf
          | some o => simp [hlk]
        · exact ih st₁ _ _ hrest t htr

/-- CLAIM C1. For every module and list of targets, `Generate` returns an
error when some target name is not present in the module's root scope — a
user error, not an internal error (third and fourth conjuncts); when every
target is defined and every per-target evaluation succeeds, `Generate`
returns a single `Parallel` request containing exactly one request per
target in target order (first and second conjuncts: `Generate` is the
state-threading map of the checked per-target request, and a success is a
`Parallel` of one request per target, with every target defined); on the
first evaluation error it returns that error and no request (first
conjunct together with the shape of `mapMState`, which stops at the first
error). -/
theorem generate_targets_spec :
    (∀ tbl cg fuel mod targets st,
      Generate tbl cg fuel mod targets st =
        (match mapMState (checkedTargetRequest tbl cg fuel mod) targets st with
         | Except.error e' => Except.error e'
         | Except.ok (reqs, st₁) => Except.ok (Request.parallel reqs, st₁))) ∧
    (∀ tbl cg fuel mod targets st req st',
      Generate tbl cg fuel mod targets st = Except.ok (req, st') →
      ∃ reqs, req = Request.parallel reqs ∧ reqs.length = targets.length ∧
        ∀ t ∈ targets, (mod.objects.lookup t.name).isSome) ∧
    (∀ tbl cg fuel mod t st,
      (mod.objects.lookup t.name) = Option.none →
      checkedTargetRequest tbl cg fuel mod t st =
        Except.error (Err.targetNotDefined t.name mod.filename)) ∧
    (∀ name filename, (Err.targetNotDefined name filename).isInternalErr = false) := by
  refine ⟨fun tbl cg fuel mod targets st => ?_, fun tbl cg fuel mod targets st req st' h => ?_,
    fun tbl cg fuel mod t st hlk => ?_, fun name filename => rfl⟩
  · show (match generateLoop tbl cg fuel mod targets st with
      | Except.error e' => Except.error e'
      | Except.ok (reqs, st₁) => Except.ok (Request.parallel reqs, st₁)) = _
    rw [generateLoop_eq_mapMState]
  · rw [show Generate tbl cg fuel mod targets st =
        (match generateLoop tbl cg fuel mod targets st with
         | Except.error e' => Except.error e'
         | Except.ok (reqs, st₁) => Except.ok (Request.parallel reqs, st₁)) from rfl,
      generateLoop_eq_mapMState] at h
    cases hm : mapMState (checkedTargetRequest tbl cg fuel mod) targets st with
    | error e => rw [hm] at h; exact absurd h (by simp)
    | ok p =>
      obtain ⟨reqs, st₁⟩ := p
      rw [hm] at h
      cases h
      exact ⟨reqs, rfl, mapMState_ok_length _ targets st reqs _ hm,
        mapMState_checked_defined tbl cg fuel mod targets st reqs _ hm⟩
  · simp only [checkedTargetRequest, hlk]

/-- Closed instance of the C1 theorem: the example module with target
`default` generates a `Parallel` of exactly one request and the target is
defined. -/
theorem generate_targets_spec_witness :
    ∃ reqs, Request.parallel [Request.solve 0] = Request.parallel reqs ∧
      reqs.length = [Target.mk "default"].length ∧
      ∀ t ∈ [Target.mk "default"], (modEx.objects.lookup t.name).isSome :=
  generate_targets_spec.2.1 tblEx cgEx 10 modEx [Target.mk "default"] initialSt
    (Request.parallel [Request.solve 0]) initialSt rfl

/-! ### C7: EmitImport -/

/-- The most specific AST node available for an `ImportPathNotExist`
diagnostic: the deprecated path form when present, else the function
literal's type node when the import expression is a function literal, else
the import expression itself. -/
def mostSpecificImportNode (id : ImportDecl) : NodeRef :=
  match id.deprecatedPath with
  | Option.some _ => NodeRef.deprecatedPath
  | Option.none =>
    match id.expr with
    | Expr.funcLit _ _ => NodeRef.funcLitType
    | _ => NodeRef.importExpr

/-- CLAIM C7. `EmitImport` evaluates the import's expression (with no
return type hint); when the value is a `Filesystem` the module file
(`ModuleFilename`) is opened in the directory returned by the host
`Resolver`, and when it is a `String` that string is the file path opened
relative to the importing module's directory; if opening reports
not-exist, `EmitImport` returns an `ImportPathNotExist` diagnostic
attached to the most specific AST node available (deprecated path, else
function-literal type, else the import expression); on success the opened
file is parsed and checked and the resulting module — carrying the
directory it was opened in — is returned. -/
theorem emitImport_spec :
    (∀ id p, id.deprecatedPath = Option.some p →
      mostSpecificImportNode id = NodeRef.deprecatedPath) ∧
    (∀ id k bd, id.deprecatedPath = Option.none → id.expr = Expr.funcLit k bd →
      mostSpecificImportNode id = NodeRef.funcLitType) ∧
    (∀ id l, id.deprecatedPath = Option.none → id.expr = Expr.basicLit l →
      mostSpecificImportNode id = NodeRef.importExpr) ∧
    (∀ tbl cg fuel ctx (mod : Module) id st r st₁,
      EmitExpr tbl cg fuel { ctx with returnType := Kind.none } { frames := [], mod := mod }
        id.expr [] [] Option.none NewRegister st = Except.ok (r, st₁) →
      ((∀ f e, r.val = Value.fs f → cg.host.resolve id f = Except.error e →
        EmitImport tbl cg (fuel + 1) ctx mod id st = Except.error e) ∧
       (∀ f d, r.val = Value.fs f → cg.host.resolve id f = Except.ok d →
        cg.host.openFile d ModuleFilename = Except.error OpenErr.notExist →
        EmitImport tbl cg (fuel + 1) ctx mod id st =
          Except.error (Err.importPathNotExist (mostSpecificImportNode id) ModuleFilename)) ∧
       (∀ s, r.val = Value.str s →
        cg.host.openFile mod.directory s = Except.error OpenErr.notExist →
        EmitImport tbl cg (fuel + 1) ctx mod id st =
          Except.error (Err.importPathNotExist (mostSpecificImportNode id) s)) ∧
       (∀ s e, r.val = Value.str s →
        cg.host.openFile mod.directory s = Except.error (OpenErr.failure e) →
        EmitImport tbl cg (fuel + 1) ctx mod id st = Except.error e) ∧
       (∀ s fh m₀, r.val = Value.str s →
        cg.host.openFile mod.directory s = Except.ok fh →
        cg.host.parse fh = Except.ok m₀ →
        cg.host.semanticPass { m₀ with directory := mod.directory } = Except.ok () →
        cg.host.check { m₀ with directory := mod.directory } = Except.ok () →
        EmitImport tbl cg (fuel + 1) ctx mod id st =
          Except.ok (({ m₀ with directory := mod.directory }, s), st₁)) ∧
       (∀ f d fh m₀, r.val = Value.fs f → cg.host.resolve id f = Except.ok d →
        cg.host.openFile d ModuleFilename = Except.ok fh →
        cg.host.parse fh = Except.ok m₀ →
        cg.host.semanticPass { m₀ with directory := d } = Except.ok () →
        cg.host.check { m₀ with directory := d } = Except.ok () →
        EmitImport tbl cg (fuel + 1) ctx mod id st =
          Except.ok (({ m₀ with directory := d }, ModuleFilename), st₁)))) := by
  refine ⟨fun id p hdp => by simp [mostSpecificImportNode, hdp],
    fun id k bd hdp hex => by simp [mostSpecificImportNode, hdp, hex],
    fun id l hdp hex => by simp [mostSpecificImportNode, hdp, hex],
    fun tbl cg fuel ctx mod id st r st₁ he => ?_⟩
  refine ⟨fun f e hv hres => ?_, fun f d hv hres hopen => ?_, fun s hv hopen => ?_,
    fun s e hv hopen => ?_, fun s fh m₀ hv hopen hparse hsp hchk => ?_,
    fun f d fh m₀ hv hres hopen hparse hsp hchk => ?_⟩
  · simp [EmitImport, importDirFilename, emitImportOpen, he, hv, Value.kind,
      Value.filesystem, hres]
  · simp only [EmitImport, importDirFilename, emitImportOpen, he, hv, Value.kind,
      Value.filesystem, hres, hopen]
    cases hdp : id.deprecatedPath with
    | some p => simp [mostSpecificImportNode, hdp]
    | none => cases hex : id.expr <;> simp [mostSpecificImportNode, hdp, hex]
  · simp only [EmitImport, importDirFilename, emitImportOpen, he, hv, Value.kind,
      Value.toStr, hopen]
    cases hdp : id.deprecatedPath with
    | some p => simp [mostSpecificImportNode, hdp]
    | none => cases hex : id.expr <;> simp [mostSpecificImportNode, hdp, hex]
  · simp [EmitImport, importDirFilename, emitImportOpen, he, hv, Value.kind, Value.toStr,
      hopen]
  · simp [EmitImport, importDirFilename, emitImportOpen, he, hv, Value.kind, Value.toStr,
      hopen, hparse, hsp, hchk]
  · simp [EmitImport, importDirFilename, emitImportOpen, he, hv, Value.kind,
      Value.filesystem, hres, hopen, hparse, hsp, hchk]

/-- The module text of `m.hlb` once parsed. -/
def modM : Module := { filename := "m.hlb", directory := 0, objects := [] }

/-- A host whose directory `3` holds the file `m.hlb`, parsed as `modM`. -/
def hostImp : Host :=
  { debug := Except.ok (), resolve := fun _ _ => Except.ok 7,
    openFile := fun d f =>
      if d = 3 ∧ f = "m.hlb" then Except.ok 5 else Except.error OpenErr.notExist,
    parse := fun fh => if fh = 5 then Except.ok modM else Except.error (Err.hostFailure "parse"),
    semanticPass := fun _ => Except.ok (), lint := fun _ => Except.ok (),
    check := fun _ => Except.ok (), checkReferences := fun _ _ => Except.ok () }

/-- Code generator over the importing host. -/
def cgImp : CodeGen := { host := hostImp, extraSolveOpts := [] }

/-- The importing module, owning directory `3`. -/
def importingMod : Module := { filename := "top.hlb", directory := 3, objects := [] }

/-- The declaration `import m "m.hlb"` (string path form). -/
def idM : ImportDecl :=
  ImportDecl.mk "m" (Expr.basicLit (BasicLit.rawString "m.hlb")) Option.none

/-- Closed instance of the C7 theorem: importing by string path parses and
checks `m.hlb` in the importing module's directory and returns the module
with that directory installed. -/
theorem emitImport_spec_witness :
    EmitImport [] cgImp 3 emptyContext importingMod idM initialSt =
      Except.ok (({ filename := "m.hlb", directory := 3, objects := [] }, "m.hlb"),
        initialSt) :=
  (emitImport_spec.2.2.2 [] cgImp 2 emptyContext importingMod idM initialSt
      { val := Value.str "m.hlb" } initialSt rfl).2.2.2.2.1 "m.hlb" 5 modM rfl rfl rfl
    rfl rfl

/-! ### C8: import caching -/

/-- Bindings of the import store survive from `st` to `st'`: a module once
installed for a slot is still the module found for that slot. -/
def storeLe (st st' : St) : Prop :=
  ∀ slot m, st.find slot = Option.some m → st'.find slot = Option.some m

/-- Every module installed in the import store has passed the host's
semantic pass and checker: the import data is absent or a fully checked
module. -/
def storeChecked (cg : CodeGen) (st : St) : Prop :=
  ∀ slot m, st.find slot = Option.some m →
    cg.host.semanticPass m = Except.ok () ∧ cg.host.check m = Except.ok ()

/-- Combined preservation of the import store from one state to another. -/
def PreservesFrom (cg : CodeGen) (st st' : St) : Prop :=
  storeLe st st' ∧ (storeChecked cg st → storeChecked cg st')

/-- Preservation is reflexive. -/
theorem preservesFrom_self (cg : CodeGen) (st : St) : PreservesFrom cg st st :=
  ⟨fun _ _ h => h, fun h => h⟩

/-- Preservation composes. -/
theorem preservesFrom_trans {cg : CodeGen} {st st₁ st₂ : St}
    (h₁ : PreservesFrom cg st st₁) (h₂ : PreservesFrom cg st₁ st₂) :
    PreservesFrom cg st st₂ :=
  ⟨fun slot m h => h₂.1 slot m (h₁.1 slot m h), fun h => h₂.2 (h₁.2 h)⟩

/-- Lookup in a store extended at the front. -/
theorem St.find_cons (slot' slot : Nat) (imod : Module) (l : List (Nat × Module)) :
    St.find { imports := (slot, imod) :: l } slot' =
      (if slot' = slot then Option.some imod else St.find { imports := l } slot') := by
  by_cases h : slot' = slot
  · simp [St.find, List.lookup, h]
  · have hb : (slot' == slot) = false := by simp [h]
    simp [St.find, List.lookup, h, hb]

/-- Installing a checked module for a previously absent slot preserves the
store invariants. -/
theorem preservesFrom_install {cg : CodeGen} {st st₁ : St} {slot : Nat} {imod : Module}
    (hnone : st.find slot = Option.none) (hp : PreservesFrom cg st st₁)
    (hsp : cg.host.semanticPass imod = Except.ok ())
    (hchk : cg.host.check imod = Except.ok ()) :
    PreservesFrom cg st { imports := (slot, imod) :: st₁.imports } := by
  constructor
  · intro slot' m h
    have hne : slot' ≠ slot := by
      intro he
      rw [he, hnone] at h
      exact absurd h (by simp)
    rw [St.find_cons, if_neg hne]
    exact hp.1 slot' m h
  · intro hc slot' m h
    rw [St.find_cons] at h
    by_cases hne : slot' = slot
    · rw [if_pos hne] at h
      cases h
      exact ⟨hsp, hchk⟩
    · rw [if_neg hne] at h
      exact hp.2 hc slot' m h

/-- A successful open-parse-check phase returns a module that passed the
semantic pass and the checker. -/
theorem emitImportOpen_checked :
    ∀ cg id dir filename m, emitImportOpen cg id dir filename = Except.ok m →
      cg.host.semanticPass m = Except.ok () ∧ cg.host.check m = Except.ok () := by
  intro cg id dir filename m h
  cases hopen : cg.host.openFile dir filename with
  | error oe =>
    cases oe with
    | notExist =>
      simp only [emitImportOpen, hopen] at h
      cases hdp : id.deprecatedPath with
      | some p => simp [hdp] at h
      | none => cases hex : id.expr <;> simp [hdp, hex] at h
    | failure e' => simp [emitImportOpen, hopen] at h
  | ok fh =>
    simp only [emitImportOpen, hopen] at h
    cases hparse : cg.host.parse fh with
    | error e' => simp [hparse] at h
    | ok m₀ =>
      simp only [hparse] at h
      cases hsp : cg.host.semanticPass { m₀ with directory := dir } with
      | error e' => simp [hsp] at h
      | ok u =>
        cases u
        simp only [hsp] at h
        cases hchk : cg.host.check { m₀ with directory := dir } with
        | error e' => simp [hchk] at h
        | ok u₂ =>
          cases u₂
          simp only [hchk] at h
          cases h
          exact ⟨hsp, hchk⟩

/-- A successful `EmitImport` returns a module that passed the semantic
pass and the checker. -/
theorem emitImport_checked :
    ∀ tbl cg fuel ctx (mod : Module) id st m fn st',
      EmitImport tbl cg fuel ctx mod id st = Except.ok ((m, fn), st') →
      cg.host.semanticPass m = Except.ok () ∧ cg.host.check m = Except.ok () := by
  intro tbl cg fuel ctx mod id st m fn st' h
  cases fuel with
  | zero => exact absurd h (by simp [EmitImport])
  | succ fuel =>
    simp only [EmitImport] at h
    cases hexp : EmitExpr tbl cg fuel { ctx with returnType := Kind.none }
        { frames := [], mod := mod } id.expr [] [] Option.none NewRegister st with
    | error e' => simp [hexp] at h
    | ok p =>
      obtain ⟨r, st₁⟩ := p
      simp only [hexp] at h
      cases hdf : importDirFilename cg mod id r.val with
      | error e' => simp [hdf] at h
      | ok q =>
        obtain ⟨dir, filename⟩ := q
        simp only [hdf] at h
        cases hop : emitImportOpen cg id dir filename with
        | error e' => simp [hop] at h
        | ok imod =>
          simp only [hop] at h
          cases h
          exact emitImportOpen_checked cg id dir _ _ hop

/-- Preservation of the import store by a state-passing computation: every
successful run preserves installed bindings and the checkedness
invariant. -/
def MPres {α : Type} (cg : CodeGen) (x : M α) : Prop :=
  ∀ st a st', x st = Except.ok (a, st') → PreservesFrom cg st st'

/-- Every emitter preserves the import store: a module installed for a slot
is never rewritten (its binding survives every successful call), and when
every installed module is checked beforehand, that stays true afterwards.
The only store write, in `lookupCall`, is guarded by a cache miss and
installs the checked output of `EmitImport`. -/
theorem emit_preserves : ∀ fuel : Nat,
    (∀ tbl cg ctx scope e args opts b ret,
      MPres cg (EmitExpr tbl cg fuel ctx scope e args opts b ret)) ∧
    (∀ tbl cg ctx scope body b ret,
      MPres cg (EmitFuncLit tbl cg fuel ctx scope body b ret)) ∧
    (∀ tbl cg ctx scope lit ret,
      MPres cg (EmitBasicLit tbl cg fuel ctx scope lit ret)) ∧
    (∀ tbl cg ctx scope frags ret,
      MPres cg (EmitStringLit tbl cg fuel ctx scope frags ret)) ∧
    (∀ tbl cg ctx scope frags,
      MPres cg (emitStringPieces tbl cg fuel ctx scope frags)) ∧
    (∀ tbl cg ctx scope start term frags ret,
      MPres cg (EmitHeredoc tbl cg fuel ctx scope start term frags ret)) ∧
    (∀ tbl cg ctx scope frags,
      MPres cg (emitHeredocFrags tbl cg fuel ctx scope frags)) ∧
    (∀ tbl cg ctx scope name sig cargs ret,
      MPres cg (EmitCallExpr tbl cg fuel ctx scope name sig cargs ret)) ∧
    (∀ tbl cg ctx scope ie lookupName args opts b ret,
      MPres cg (EmitIdentExpr tbl cg fuel ctx scope ie lookupName args opts b ret)) ∧
    (∀ tbl cg ctx mod id,
      MPres cg (EmitImport tbl cg fuel ctx mod id)) ∧
    (∀ tbl cg ctx declMod fd args b ret,
      MPres cg (EmitFuncDecl tbl cg fuel ctx declMod fd args b ret)) ∧
    (∀ tbl cg ctx declMod b args ret,
      MPres cg (EmitBinding tbl cg fuel ctx declMod b args ret)) ∧
    (∀ tbl cg ctx scope lookupName,
      MPres cg (lookupCall tbl cg fuel ctx scope lookupName)) ∧
    (∀ tbl cg ctx scope block b ret,
      MPres cg (EmitBlock tbl cg fuel ctx scope block b ret)) ∧
    (∀ tbl cg ctx scope stmts b ret,
      MPres cg (emitStmts tbl cg fuel ctx scope stmts b ret)) ∧
    (∀ tbl cg ctx scope cs b ret,
      MPres cg (EmitCallStmt tbl cg fuel ctx scope cs b ret)) ∧
    (∀ tbl cg ctx scope b kinds exprs,
      MPres cg (Evaluate tbl cg fuel ctx scope b kinds exprs)) ∧
    (∀ tbl cg ctx scope b pairs,
      MPres cg (evaluateLoop tbl cg fuel ctx scope b pairs)) := by
  intro fuel
  induction fuel with
  | zero =>
    refine ⟨?_, ?_, ?_, ?_, ?_, ?_, ?_, ?_, ?_, ?_, ?_, ?_, ?_, ?_, ?_, ?_, ?_, ?_⟩
    · intro tbl cg ctx scope e args opts b ret st a st' h
      simp [EmitExpr] at h
    · intro tbl cg ctx scope body b ret st a st' h
      simp [EmitFuncLit] at h
    · intro tbl cg ctx scope lit ret st a st' h
      simp [EmitBasicLit] at h
    · intro tbl cg ctx scope frags ret st a st' h
      simp [EmitStringLit] at h
    · intro tbl cg ctx scope frags st a st' h
      simp [emitStringPieces] at h
    · intro tbl cg ctx scope start term frags ret st a st' h
      simp [EmitHeredoc] at h
    · intro tbl cg ctx scope frags st a st' h
      simp [emitHeredocFrags] at h
    · intro tbl cg ctx scope name sig cargs ret st a st' h
      simp [EmitCallExpr] at h
    · intro tbl cg ctx scope ie lookupName args opts b ret st a st' h
      simp [EmitIdentExpr] at h
    · intro tbl cg ctx mod id st a st' h
      simp [EmitImport] at h
    · intro tbl cg ctx declMod fd args b ret st a st' h
      simp [EmitFuncDecl] at h
    · intro tbl cg ctx declMod b args ret st a st' h
      simp [EmitBinding] at h
    · intro tbl cg ctx scope lookupName st a st' h
      simp [lookupCall] at h
    · intro tbl cg ctx scope block b ret st a st' h
      simp [EmitBlock] at h
    · intro tbl cg ctx scope stmts b ret st a st' h
      simp [emitStmts] at h
    · intro tbl cg ctx scope cs b ret st a st' h
      simp [EmitCallStmt] at h
    · intro tbl cg ctx scope b kinds exprs st a st' h
      simp [Evaluate] at h
    · intro tbl cg ctx scope b pairs st a st' h
      simp [evaluateLoop] at h
  | succ fuel ih =>
    obtain ⟨ihExpr, ihFuncLit, ihBasicLit, ihStringLit, ihStringPieces, ihHeredoc,
      ihHeredocFrags, ihCallExpr, ihIdentExpr, ihImport, ihFuncDecl, ihBinding,
      ihLookupCall, ihBlock, ihStmts, ihCallStmt, ihEvaluate, ihEvalLoop⟩ := ih
    refine ⟨?_, ?_, ?_, ?_, ?_, ?_, ?_, ?_, ?_, ?_, ?_, ?_, ?_, ?_, ?_, ?_, ?_, ?_⟩
    -- EmitExpr
    · intro tbl cg ctx scope e args opts b ret st a st' h
      cases e with
      | funcLit k body =>
        simp only [EmitExpr] at h
        exact ihFuncLit tbl cg ctx scope body b ret st a st' h
      | basicLit lit =>
        simp only [EmitExpr] at h
        exact ihBasicLit tbl cg ctx scope lit ret st a st' h
      | callExpr name sig cargs =>
        simp only [EmitExpr] at h
        cases hl : lookupCall tbl cg fuel ctx scope name.ident st with
        | error e' => simp [hl] at h
        | ok p =>
          obtain ⟨u, st₁⟩ := p
          simp only [hl] at h
          cases hc : EmitCallExpr tbl cg fuel ctx scope name sig cargs { val := ret.val }
              st₁ with
          | error e' => simp [hc] at h
          | ok q =>
            obtain ⟨r₂, st₂⟩ := q
            simp only [hc] at h
            cases h
            exact preservesFrom_trans
              (ihLookupCall tbl cg ctx scope name.ident st u st₁ hl)
              (ihCallExpr tbl cg ctx scope name sig cargs { val := ret.val } st₁ r₂ _ hc)
    -- EmitFuncLit
    · intro tbl cg ctx scope body b ret st a st' h
      simp only [EmitFuncLit] at h
      exact ihBlock tbl cg ctx scope (Option.some body) b ret st a st' h
    -- EmitBasicLit
    · intro tbl cg ctx scope lit ret st a st' h
      cases lit with
      | decimal n => simp only [EmitBasicLit] at h; cases h; exact preservesFrom_self cg st
      | numeric n => simp only [EmitBasicLit] at h; cases h; exact preservesFrom_self cg st
      | boolean bv => simp only [EmitBasicLit] at h; cases h; exact preservesFrom_self cg st
      | strLit frags =>
        simp only [EmitBasicLit] at h
        exact ihStringLit tbl cg ctx scope frags ret st a st' h
      | rawString t =>
        simp only [EmitBasicLit] at h; cases h; exact preservesFrom_self cg st
      | heredoc s t frags =>
        simp only [EmitBasicLit] at h
        exact ihHeredoc tbl cg ctx scope s t frags ret st a st' h
      | rawHeredoc s t frags =>
        simp only [EmitBasicLit] at h
        cases hr : EmitRawHeredoc s t frags ret with
        | error e' => simp [hr] at h
        | ok r =>
          simp only [hr] at h
          cases h
          exact preservesFrom_self cg st
    -- EmitStringLit
    · intro tbl cg ctx scope frags ret st a st' h
      simp only [EmitStringLit] at h
      cases hp : emitStringPieces tbl cg fuel ctx scope frags st with
      | error e' => simp [hp] at h
      | ok q =>
        obtain ⟨pieces, st₁⟩ := q
        simp only [hp] at h
        cases h
        exact ihStringPieces tbl cg ctx scope frags st pieces _ hp
    -- emitStringPieces
    · intro tbl cg ctx scope frags st a st' h
      cases frags with
      | nil =>
        simp only [emitStringPieces] at h
        cases h
        exact preservesFrom_self cg st
      | cons f rest =>
        cases f with
        | escaped c =>
          simp only [emitStringPieces] at h
          by_cases hc : c = '$'
          · rw [if_pos hc] at h
            cases hrest : emitStringPieces tbl cg fuel ctx scope rest st with
            | error e' => simp [hrest] at h
            | ok q =>
              obtain ⟨ps, st₂⟩ := q
              simp only [hrest] at h
              cases h
              exact ihStringPieces tbl cg ctx scope rest st ps _ hrest
          · rw [if_neg hc] at h
            cases hu : unquoteEscape c with
            | error e' => simp [hu] at h
            | ok ch =>
              simp only [hu] at h
              cases hrest : emitStringPieces tbl cg fuel ctx scope rest st with
              | error e' => simp [hrest] at h
              | ok q =>
                obtain ⟨ps, st₂⟩ := q
                simp only [hrest] at h
                cases h
                exact ihStringPieces tbl cg ctx scope rest st ps _ hrest
        | interpolated ie =>
          simp only [emitStringPieces] at h
          cases he : EmitExpr tbl cg fuel ctx scope ie [] [] Option.none NewRegister st with
          | error e' => simp [he] at h
          | ok p =>
            obtain ⟨r, st₁⟩ := p
            simp only [he] at h
            cases hs : r.val.toStr with
            | error e' => simp [hs] at h
            | ok piece =>
              simp only [hs] at h
              cases hrest : emitStringPieces tbl cg fuel ctx scope rest st₁ with
              | error e' => simp [hrest] at h
              | ok q =>
                obtain ⟨ps, st₂⟩ := q
                simp only [hrest] at h
                cases h
                exact preservesFrom_trans
                  (ihExpr tbl cg ctx scope ie [] [] Option.none NewRegister st r st₁ he)
                  (ihStringPieces tbl cg ctx scope rest st₁ ps _ hrest)
        | text s =>
          simp only [emitStringPieces] at h
          cases hrest : emitStringPieces tbl cg fuel ctx scope rest st with
          | error e' => simp [hrest] at h
          | ok q =>
            obtain ⟨ps, st₂⟩ := q
            simp only [hrest] at h
            cases h
            exact ihStringPieces tbl cg ctx scope rest st ps _ hrest
    -- EmitHeredoc
    · intro tbl cg ctx scope start term frags ret st a st' h
      simp only [EmitHeredoc] at h
      cases hp : emitHeredocFrags tbl cg fuel ctx scope frags st with
      | error e' => simp [hp] at h
      | ok q =>
        obtain ⟨pieces, st₁⟩ := q
        simp only [hp] at h
        cases hh : emitHeredocPieces start term pieces ret with
        | error e' => simp [hh] at h
        | ok r =>
          simp only [hh] at h
          cases h
          exact ihHeredocFrags tbl cg ctx scope frags st pieces _ hp
    -- emitHeredocFrags
    · intro tbl cg ctx scope frags st a st' h
      cases frags with
      | nil =>
        simp only [emitHeredocFrags] at h
        cases h
        exact preservesFrom_self cg st
      | cons f rest =>
        cases f with
        | spaces s =>
          simp only [emitHeredocFrags] at h
          cases hrest : emitHeredocFrags tbl cg fuel ctx scope rest st with
          | error e' => simp [hrest] at h
          | ok q =>
            obtain ⟨ps, st₂⟩ := q
            simp only [hrest] at h
            cases h
            exact ihHeredocFrags tbl cg ctx scope rest st ps _ hrest
        | escaped c =>
          simp only [emitHeredocFrags] at h
          by_cases hc : c = '$'
          · rw [if_pos hc] at h
            cases hrest : emitHeredocFrags tbl cg fuel ctx scope rest st with
            | error e' => simp [hrest] at h
            | ok q =>
              obtain ⟨ps, st₂⟩ := q
              simp only [hrest] at h
              cases h
              exact ihHeredocFrags tbl cg ctx scope rest st ps _ hrest
          · rw [if_neg hc] at h
            cases hrest : emitHeredocFrags tbl cg fuel ctx scope rest st with
            | error e' => simp [hrest] at h
            | ok q =>
              obtain ⟨ps, st₂⟩ := q
              simp only [hrest] at h
              cases h
              exact ihHeredocFrags tbl cg ctx scope rest st ps _ hrest
        | interpolated ie =>
          simp only [emitHeredocFrags] at h
          cases he : EmitExpr tbl cg fuel ctx scope ie [] [] Option.none NewRegister st with
          | error e' => simp [he] at h
          | ok p =>
            obtain ⟨r, st₁⟩ := p
            simp only [he] at h
            cases hs : r.val.toStr with
            | error e' => simp [hs] at h
            | ok piece =>
              simp only [hs] at h
              cases hrest : emitHeredocFrags tbl cg fuel ctx scope rest st₁ with
              | error e' => simp [hrest] at h
              | ok q =>
                obtain ⟨ps, st₂⟩ := q
                simp only [hrest] at h
                cases h
                exact preservesFrom_trans
                  (ihExpr tbl cg ctx scope ie [] [] Option.none NewRegister st r st₁ he)
                  (ihHeredocFrags tbl cg ctx scope rest st₁ ps _ hrest)
        | text s =>
          simp only [emitHeredocFrags] at h
          cases hrest : emitHeredocFrags tbl cg fuel ctx scope rest st with
          | error e' => simp [hrest] at h
          | ok q =>
            obtain ⟨ps, st₂⟩ := q
            simp only [hrest] at h
            cases h
            exact ihHeredocFrags tbl cg ctx scope rest st ps _ hrest
    -- EmitCallExpr
    · intro tbl cg ctx scope name sig cargs ret st a st' h
      simp only [EmitCallExpr] at h
      cases hd : cg.host.debug with
      | error e' => simp [hd] at h
      | ok u =>
        cases u
        simp only [hd] at h
        cases hev : Evaluate tbl cg fuel (withFrame ctx name) scope Option.none sig cargs
            st with
        | error e' => simp [hev] at h
        | ok p =>
          obtain ⟨args, st₁⟩ := p
          simp only [hev] at h
          exact preservesFrom_trans
            (ihEvaluate tbl cg (withFrame ctx name) scope Option.none sig cargs st args
              st₁ hev)
            (ihIdentExpr tbl cg (withFrame ctx name) scope name name.ident args []
              Option.none ret st₁ a st' h)
    -- EmitIdentExpr
    · intro tbl cg ctx scope ie lookupName args opts b ret st a st' h
      simp only [EmitIdentExpr] at h
      cases hobj : scope.lookupName lookupName with
      | none => simp [hobj] at h
      | some obj =>
        simp only [hobj] at h
        cases hn : obj.node with
        | builtinDecl bd =>
          simp only [hn] at h
          cases hb : EmitBuiltinDecl tbl cg ctx bd args opts b ret.val with
          | error e' => simp [hb] at h
          | ok v =>
            simp only [hb] at h
            cases h
            exact preservesFrom_self cg st
        | funcDecl fd =>
          simp only [hn] at h
          exact ihFuncDecl tbl cg ctx scope.mod fd args Option.none ret st a st' h
        | bindClause bindId targets =>
          simp only [hn] at h
          cases ht : targets.lookup lookupName with
          | none => simp [ht] at h
          | some closure =>
            simp only [ht] at h
            exact ihBinding tbl cg ctx scope.mod
              { bindId := bindId, name := lookupName, closure := closure } args ret st a
              st' h
        | importDecl slot id =>
          simp only [hn] at h
          cases hfind : st.find slot with
          | none => simp [hfind] at h
          | some imod =>
            simp only [hfind] at h
            cases href : ie.reference with
            | none => simp [href] at h
            | some refName =>
              simp only [href] at h
              exact ihIdentExpr tbl cg ctx { frames := [], mod := imod } ie refName args
                opts Option.none ret st a st' h
        | field p =>
          simp only [hn] at h
          cases hnv : NewValue obj.data with
          | error e' => simp [hnv] at h
          | ok val =>
            simp only [hnv] at h
            by_cases hcond : val.kind ≠ Kind.option ∨ ret.val.kind ≠ Kind.option
            · rw [if_pos hcond] at h
              cases h
              exact preservesFrom_self cg st
            · rw [if_neg hcond] at h
              cases hro : ret.val.option with
              | error e' => simp [hro] at h
              | ok retOpts =>
                simp only [hro] at h
                cases hvo : val.option with
                | error e' => simp [hvo] at h
                | ok valOpts =>
                  simp only [hvo] at h
                  cases h
                  exact preservesFrom_self cg st
        | other => simp [hn] at h
    -- EmitImport
    · intro tbl cg ctx mod id st a st' h
      simp only [EmitImport] at h
      cases hexp : EmitExpr tbl cg fuel { ctx with returnType := Kind.none }
          { frames := [], mod := mod } id.expr [] [] Option.none NewRegister st with
      | error e' => simp [hexp] at h
      | ok p =>
        obtain ⟨r, st₁⟩ := p
        simp only [hexp] at h
        cases hdf : importDirFilename cg mod id r.val with
        | error e' => simp [hdf] at h
        | ok q =>
          obtain ⟨dir, filename⟩ := q
          simp only [hdf] at h
          cases hop : emitImportOpen cg id dir filename with
          | error e' => simp [hop] at h
          | ok imod =>
            simp only [hop] at h
            cases h
            exact ihExpr tbl cg { ctx with returnType := Kind.none }
              { frames := [], mod := mod } id.expr [] [] Option.none NewRegister st r _
              hexp
    -- EmitFuncDecl
    · intro tbl cg ctx declMod fd args b ret st a st' h
      simp only [EmitFuncDecl] at h
      by_cases ha : fd.params.length ≠ args.length
      · rw [if_pos ha] at h
        exact absurd h (by simp)
      · rw [if_neg ha] at h
        cases hd : cg.host.debug with
        | error e' => simp [hd] at h
        | ok u =>
          cases u
          simp only [hd] at h
          exact ihBlock tbl cg ctx
            { frames := [bindParams fd.params args], mod := declMod } fd.body b ret st a
            st' h
    -- EmitBinding
    · intro tbl cg ctx declMod b args ret st a st' h
      simp only [EmitBinding] at h
      exact ihFuncDecl tbl cg ctx declMod b.closure args (Option.some b) ret st a st' h
    -- lookupCall
    · intro tbl cg ctx scope lookupName st a st' h
      simp only [lookupCall] at h
      cases hobj : scope.lookupName lookupName with
      | none => simp [hobj] at h
      | some obj =>
        simp only [hobj] at h
        cases hn : obj.node with
        | builtinDecl bd => simp only [hn] at h; cases h; exact preservesFrom_self cg st
        | funcDecl fd => simp only [hn] at h; cases h; exact preservesFrom_self cg st
        | bindClause bindId targets =>
          simp only [hn] at h; cases h; exact preservesFrom_self cg st
        | field p => simp only [hn] at h; cases h; exact preservesFrom_self cg st
        | other => simp only [hn] at h; cases h; exact preservesFrom_self cg st
        | importDecl slot id =>
          simp only [hn] at h
          cases hfind : st.find slot with
          | some m =>
            simp only [hfind] at h
            cases h
            exact preservesFrom_self cg st
          | none =>
            simp only [hfind] at h
            cases him : EmitImport tbl cg fuel ctx scope.mod id st with
            | error e' => simp [him] at h
            | ok p =>
              obtain ⟨q, st₁⟩ := p
              obtain ⟨imod, fn⟩ := q
              simp only [him] at h
              cases hcr : cg.host.checkReferences scope.mod id.name with
              | error e' => simp [hcr] at h
              | ok u =>
                cases u
                simp only [hcr] at h
                cases h
                exact preservesFrom_install hfind
                  (ihImport tbl cg ctx scope.mod id st (imod, fn) st₁ him)
                  (emitImport_checked tbl cg fuel ctx scope.mod id st imod fn st₁ him).1
                  (emitImport_checked tbl cg fuel ctx scope.mod id st imod fn st₁ him).2
    -- EmitBlock
    · intro tbl cg ctx scope block b ret st a st' h
      cases block with
      | none =>
        simp only [EmitBlock] at h
        cases h
        exact preservesFrom_self cg st
      | some blk =>
        cases blk with
        | mk kind stmts =>
          simp only [EmitBlock] at h
          exact ihStmts tbl cg { ctx with returnType := kind } scope stmts b ret st a st' h
    -- emitStmts
    · intro tbl cg ctx scope stmts b ret st a st' h
      cases stmts with
      | nil =>
        simp only [emitStmts] at h
        cases h
        exact preservesFrom_self cg st
      | cons stmt rest =>
        cases stmt with
        | call cs =>
          simp only [emitStmts] at h
          cases hl : lookupCall tbl cg fuel ctx scope cs.name.ident st with
          | error e' => simp [hl] at h
          | ok p =>
            obtain ⟨u, st₁⟩ := p
            simp only [hl] at h
            cases hcs : EmitCallStmt tbl cg fuel ctx scope cs b { val := ret.val } st₁ with
            | error e' => simp [hcs] at h
            | ok q =>
              obtain ⟨r₂, st₂⟩ := q
              simp only [hcs] at h
              exact preservesFrom_trans
                (preservesFrom_trans
                  (ihLookupCall tbl cg ctx scope cs.name.ident st u st₁ hl)
                  (ihCallStmt tbl cg ctx scope cs b { val := ret.val } st₁ r₂ st₂ hcs))
                (ihStmts tbl cg ctx scope rest b (ret.set r₂.val) st₂ a st' h)
        | expr e =>
          simp only [emitStmts] at h
          cases he : EmitExpr tbl cg fuel ctx scope e [] [] b ret st with
          | error e' => simp [he] at h
          | ok p =>
            obtain ⟨r₁, st₁⟩ := p
            simp only [he] at h
            exact preservesFrom_trans
              (ihExpr tbl cg ctx scope e [] [] b ret st r₁ st₁ he)
              (ihStmts tbl cg ctx scope rest b r₁ st₁ a st' h)
    -- EmitCallStmt
    · intro tbl cg ctx scope cs b ret st a st' h
      cases cs with
      | mk name sig cargs withE bindId isBp =>
        simp only [EmitCallStmt] at h
        cases hev : Evaluate tbl cg fuel (withFrame ctx name) scope Option.none sig cargs
            st with
        | error e' => simp [hev] at h
        | ok p =>
          obtain ⟨args, st₁⟩ := p
          simp only [hev] at h
          have hargs := ihEvaluate tbl cg (withFrame ctx name) scope Option.none sig cargs
            st args st₁ hev
          cases withE with
          | none =>
            cases isBp with
            | false =>
              cases hd : cg.host.debug with
              | error e' => simp [hd] at h
              | ok u =>
                cases u
                simp only [hd] at h
                exact preservesFrom_trans hargs
                  (ihIdentExpr tbl cg (withFrame ctx name) scope name name.ident args _ _
                    ret st₁ a st' h)
            | true =>
              cases hsa : stringifyArgs args with
              | error e' => simp [hsa] at h
              | ok command =>
                simp only [hsa] at h
                by_cases hlen : command.length ≠ 0
                · rw [if_pos hlen] at h
                  cases hd : cg.host.debug with
                  | error e' => simp [hd] at h
                  | ok u =>
                    cases u
                    simp only [hd] at h
                    exact preservesFrom_trans hargs
                      (ihIdentExpr tbl cg (withFrame ctx name) scope name name.ident args
                        _ _ ret st₁ a st' h)
                · rw [if_neg hlen] at h
                  cases hd : cg.host.debug with
                  | error e' => simp [hd] at h
                  | ok u =>
                    cases u
                    simp only [hd] at h
                    exact preservesFrom_trans hargs
                      (ihIdentExpr tbl cg (withFrame ctx name) scope name name.ident args
                        _ _ ret st₁ a st' h)
          | some we =>
            cases hev2 : Evaluate tbl cg fuel (withFrame ctx name) scope b
                [Kind.optionFor name.text] [we] st₁ with
            | error e' => simp [hev2] at h
            | ok p₂ =>
              obtain ⟨values, st₂⟩ := p₂
              simp only [hev2] at h
              have hwith := ihEvaluate tbl cg (withFrame ctx name) scope b
                [Kind.optionFor name.text] [we] st₁ values st₂ hev2
              cases values with
              | nil => simp at h
              | cons v vs =>
                cases vs with
                | cons v₂ vs₂ => simp at h
                | nil =>
                  cases hvo : v.option with
                  | error e' => simp [hvo] at h
                  | ok os =>
                    simp only [hvo] at h
                    cases isBp with
                    | false =>
                      cases hd : cg.host.debug with
                      | error e' => simp [hd] at h
                      | ok u =>
                        cases u
                        simp only [hd] at h
                        exact preservesFrom_trans (preservesFrom_trans hargs hwith)
                          (ihIdentExpr tbl cg (withFrame ctx name) scope name name.ident
                            args _ _ ret st₂ a st' h)
                    | true =>
                      cases hsa : stringifyArgs args with
                      | error e' => simp [hsa] at h
                      | ok command =>
                        simp only [hsa] at h
                        by_cases hlen : command.length ≠ 0
                        · rw [if_pos hlen] at h
                          cases hd : cg.host.debug with
                          | error e' => simp [hd] at h
                          | ok u =>
                            cases u
                            simp only [hd] at h
                            exact preservesFrom_trans (preservesFrom_trans hargs hwith)
                              (ihIdentExpr tbl cg (withFrame ctx name) scope name
                                name.ident args _ _ ret st₂ a st' h)
                        · rw [if_neg hlen] at h
                          cases hd : cg.host.debug with
                          | error e' => simp [hd] at h
                          | ok u =>
                            cases u
                            simp only [hd] at h
                            exact preservesFrom_trans (preservesFrom_trans hargs hwith)
                              (ihIdentExpr tbl cg (withFrame ctx name) scope name
                                name.ident args _ _ ret st₂ a st' h)
    -- Evaluate
    · intro tbl cg ctx scope b kinds exprs st a st' h
      simp only [Evaluate] at h
      by_cases hk : kinds.length ≠ exprs.length
      · rw [if_pos hk] at h
        exact absurd h (by simp)
      · rw [if_neg hk] at h
        exact ihEvalLoop tbl cg ctx scope b (kinds.zip exprs) st a st' h
    -- evaluateLoop
    · intro tbl cg ctx scope b pairs st a st' h
      cases pairs with
      | nil =>
        simp only [evaluateLoop] at h
        cases h
        exact preservesFrom_self cg st
      | cons pair rest =>
        obtain ⟨k, e⟩ := pair
        simp only [evaluateLoop] at h
        cases hex : EmitExpr tbl cg fuel { ctx with returnType := k } scope e [] [] b
            NewRegister st with
        | error e' => simp [hex] at h
        | ok p =>
          obtain ⟨r, st₁⟩ := p
          simp only [hex] at h
          cases hrest : evaluateLoop tbl cg fuel { ctx with returnType := k } scope b rest
              st₁ with
          | error e' => simp [hrest] at h
          | ok q =>
            obtain ⟨vs, st₂⟩ := q
            simp only [hrest] at h
            cases h
            exact preservesFrom_trans
              (ihExpr tbl cg { ctx with returnType := k } scope e [] [] b NewRegister st r
                st₁ hex)
              (ihEvalLoop tbl cg { ctx with returnType := k } scope b rest st₁ vs _ hrest)

/-- Import object binding the name `m` to store slot `0` for `idM`. -/
def importObjM : Object :=
  { kind := Kind.none, node := ObjNode.importDecl 0 idM, data := ObjData.none }

/-- Module whose root object table binds `m` to the import object. -/
def modWithImport : Module :=
  { filename := "top.hlb", directory := 3, objects := [("m", importObjM)] }

/-- Scope over the module with the import, with no local frames. -/
def scopeImp : Scope := { frames := [], mod := modWithImport }

/-- A store caching `modM` at slot `0`. -/
def stCached : St := { imports := [(0, modM)] }

/-- Identifier expression `m.f` selecting `f` from the import `m`. -/
def ieM : IdentExpr := { ident := "m", reference := Option.some "f" }

/-- The module produced by importing `m.hlb` into directory `3`. -/
def modMImported : Module := { filename := "m.hlb", directory := 3, objects := [] }

/-- Store holding the freshly installed import at slot `0`. -/
def stInstalled : St := { imports := [(0, modMImported)] }

/-- CLAIM C8: for every import object the store data is absent or a fully
checked module, and once `lookupCall` has installed an imported module it is
never rewritten. Conjuncts: (1) every successful `lookupCall` preserves all
installed bindings unchanged and preserves the checkedness invariant;
(2) on a cache hit `lookupCall` returns with the state untouched, uniformly
in the table and the code generator — so no host parse or check can be
consulted and nothing is replaced; (3) `EmitIdentExpr` on a cached import
dispatches into the cached module's scope; (4) on an import whose slot is
empty it fails with an internal error rather than parsing; (5) a cache miss
that succeeds installs a module at the slot that passed the host's semantic
pass and checker; (6) the initial store satisfies the invariant. -/
theorem lookupCall_import_cache_spec :
    (∀ tbl cg fuel ctx scope name st a st',
      lookupCall tbl cg fuel ctx scope name st = Except.ok (a, st') →
        PreservesFrom cg st st') ∧
    (∀ tbl cg fuel ctx scope name (obj : Object) slot id m st,
      scope.lookupName name = Option.some obj →
      obj.node = ObjNode.importDecl slot id →
      St.find st slot = Option.some m →
      lookupCall tbl cg (fuel + 1) ctx scope name st = Except.ok ((), st)) ∧
    (∀ tbl cg fuel ctx scope ie name args opts b ret (obj : Object) slot id m refName st,
      scope.lookupName name = Option.some obj →
      obj.node = ObjNode.importDecl slot id →
      St.find st slot = Option.some m →
      ie.reference = Option.some refName →
      EmitIdentExpr tbl cg (fuel + 1) ctx scope ie name args opts b ret st =
        EmitIdentExpr tbl cg fuel ctx { frames := [], mod := m } ie refName args opts
          Option.none ret st) ∧
    (∀ tbl cg fuel ctx scope ie name args opts b ret (obj : Object) slot id st,
      scope.lookupName name = Option.some obj →
      obj.node = ObjNode.importDecl slot id →
      St.find st slot = Option.none →
      EmitIdentExpr tbl cg (fuel + 1) ctx scope ie name args opts b ret st =
        Except.error (Err.internal "expected imported module to be resolved")) ∧
    (∀ tbl cg fuel ctx scope name (obj : Object) slot id st st',
      scope.lookupName name = Option.some obj →
      obj.node = ObjNode.importDecl slot id →
      St.find st slot = Option.none →
      lookupCall tbl cg (fuel + 1) ctx scope name st = Except.ok ((), st') →
      ∃ m, St.find st' slot = Option.some m ∧
        cg.host.semanticPass m = Except.ok () ∧ cg.host.check m = Except.ok ()) ∧
    (∀ cg, storeChecked cg initialSt) := by
  refine ⟨?_, ?_, ?_, ?_, ?_, ?_⟩
  · intro tbl cg fuel ctx scope name st a st' h
    obtain ⟨_, _, _, _, _, _, _, _, _, _, _, _, hl, _⟩ := emit_preserves fuel
    exact hl tbl cg ctx scope name st a st' h
  · intro tbl cg fuel ctx scope name obj slot id m st hobj hn hfind
    simp only [lookupCall, hobj, hn, hfind]
  · intro tbl cg fuel ctx scope ie name args opts b ret obj slot id m refName st hobj hn
      hfind href
    simp only [EmitIdentExpr, hobj, hn, hfind, href]
  · intro tbl cg fuel ctx scope ie name args opts b ret obj slot id st hobj hn hfind
    simp only [EmitIdentExpr, hobj, hn, hfind]
  · intro tbl cg fuel ctx scope name obj slot id st st' hobj hn hfind h
    simp only [lookupCall, hobj, hn, hfind] at h
    cases him : EmitImport tbl cg fuel ctx scope.mod id st with
    | error e' => simp [him] at h
    | ok p =>
      obtain ⟨q, st₁⟩ := p
      obtain ⟨imod, fn⟩ := q
      simp only [him] at h
      cases hcr : cg.host.checkReferences scope.mod id.name with
      | error e' => simp [hcr] at h
      | ok u =>
        cases u
        simp only [hcr] at h
        cases h
        refine ⟨imod, ?_, emitImport_checked tbl cg fuel ctx scope.mod id st imod fn st₁
          him⟩
        rw [St.find_cons, if_pos rfl]
  · intro cg slot m h
    simp [initialSt, St.find, List.lookup] at h

/-- Closed instance of the C8 theorem: with `modM` cached at slot `0`,
`lookupCall` is the identity on the store for any host; `m.f` dispatches
into the cached module; with an empty store the identifier fails and a
successful `lookupCall` installs a checked module. -/
theorem lookupCall_import_cache_spec_witness :
    (PreservesFrom cgImp stCached stCached) ∧
    (lookupCall [] cgImp 1 emptyContext scopeImp "m" stCached =
      Except.ok ((), stCached)) ∧
    (EmitIdentExpr [] cgImp 1 emptyContext scopeImp ieM "m" [] [] Option.none NewRegister
        stCached =
      EmitIdentExpr [] cgImp 0 emptyContext { frames := [], mod := modM } ieM "f" [] []
        Option.none NewRegister stCached) ∧
    (EmitIdentExpr [] cgImp 1 emptyContext scopeImp ieM "m" [] [] Option.none NewRegister
        initialSt =
      Except.error (Err.internal "expected imported module to be resolved")) ∧
    (∃ m, St.find stInstalled 0 = Option.some m ∧
      cgImp.host.semanticPass m = Except.ok () ∧ cgImp.host.check m = Except.ok ()) ∧
    storeChecked cgImp initialSt :=
  ⟨lookupCall_import_cache_spec.1 [] cgImp 1 emptyContext scopeImp "m" stCached ()
      stCached rfl,
    lookupCall_import_cache_spec.2.1 [] cgImp 0 emptyContext scopeImp "m" importObjM 0
      idM modM stCached rfl rfl rfl,
    lookupCall_import_cache_spec.2.2.1 [] cgImp 0 emptyContext scopeImp ieM "m" [] []
      Option.none NewRegister importObjM 0 idM modM "f" stCached rfl rfl rfl rfl,
    lookupCall_import_cache_spec.2.2.2.1 [] cgImp 0 emptyContext scopeImp ieM "m" [] []
      Option.none NewRegister importObjM 0 idM initialSt rfl rfl rfl,
    lookupCall_import_cache_spec.2.2.2.2.1 [] cgImp 3 emptyContext scopeImp "m"
      importObjM 0 idM initialSt stInstalled rfl rfl rfl rfl,
    lookupCall_import_cache_spec.2.2.2.2.2 cgImp⟩

end HLB
